import Mathlib

/-!
Verification of the byo-browser core: markup lexer/parser (src/html.rs),
style lexer/parser (src/css.rs), and the trace-scoped traversal engine with
the reference layout policy (src/main.rs).

Modelling conventions:
* Rust `String`/`&str` become Lean `String`; character scans work on `String.data : List Char`.
* `Vec<T>` becomes `List T`, `HashMap<String,String>` becomes an association
  list `List (String × String)` with insert-overwrites / lookup-first semantics
  (only lookup, insert and key-removal are used by the source).
* Fallible parsing returns `PResult`: `.ok`, structured `.err` (the `bail!`
  messages carry expected construct, remaining token window and position), or
  `.panic` for an actual Rust panic (out-of-bounds index / `unwrap` on `None`).
* `f32` cursor arithmetic is modelled with exact rationals (`Rat`); every
  constant the source manipulates (8.0, 25.0, 36.0, small pixel values) is
  exactly representable in `f32`, and no claim depends on rounding.
* The skia text collaborators are oracles: `m : String → Rat × Rat` models
  `Font::measure_str` (width, height) and `b : String → Bool` models whether
  `TextBlob::from_str` returns `Some`.
-/

-- `Rat.add` and friends are `@[irreducible]` in core; restoring the default
-- reducibility lets `decide` evaluate the cursor arithmetic of concrete
-- layout runs inside the kernel.
set_option allowUnsafeReducibility true
attribute [semireducible] Rat.add Rat.sub Rat.neg Rat.mul Rat.div Rat.inv
  Rat.normalize Rat.maybeNormalize

namespace ByoBrowser

/-! ## Markup lexer (src/html.rs, `Token` and `tokenize_html`) -/

/-- Token type of the markup lexer (enum `Token` in src/html.rs). -/
inductive HToken where
  | lAngle
  | rAngle
  | slash
  | equal
  | text (s : String)
  | quotedText (s : String)
deriving DecidableEq, Repr

/-- Rust's `char::is_whitespace`: the Unicode `White_Space` property. -/
def rustIsWhitespace (c : Char) : Bool :=
  c.val = 0x09 || c.val = 0x0A || c.val = 0x0B || c.val = 0x0C || c.val = 0x0D ||
  c.val = 0x20 || c.val = 0x85 || c.val = 0xA0 || c.val = 0x1680 ||
  (0x2000 ≤ c.val && c.val ≤ 0x200A) ||
  c.val = 0x2028 || c.val = 0x2029 || c.val = 0x202F || c.val = 0x205F || c.val = 0x3000

/-- Characters that extend a bare-text run in `tokenize_html`
(the loop condition at src/html.rs:135-140). -/
def htmlTextChar (c : Char) : Bool :=
  !rustIsWhitespace c && c ≠ '<' && c ≠ '>' && c ≠ '='

/-- The characters of the literal `"<!DOCTYPE html>"` skipped by the lexer. -/
def doctypeChars : List Char := "<!DOCTYPE html>".data

theorem length_dropWhile_le (p : α → Bool) (l : List α) :
    (l.dropWhile p).length ≤ l.length :=
  (List.dropWhile_suffix p).sublist.length_le

/-- The scan loop of `tokenize_html` (src/html.rs:104-146), recursing on the
remaining character list instead of a position index.  The `fuel` argument
only makes the recursion structural (so that terms reduce inside the
kernel): every branch consumes at least one character, so a fuel of
`cs.length` never runs out (`tokenizeHtmlAux_fuel`). -/
def tokenizeHtmlAux : Nat → List Char → List HToken
  | _, [] => []
  | 0, _ :: _ => []
  | fuel + 1, c :: cs =>
    if rustIsWhitespace c then
      tokenizeHtmlAux fuel cs
    else if doctypeChars.isPrefixOf (c :: cs) then
      tokenizeHtmlAux fuel (cs.drop 14)
    else if c = '<' then
      HToken.lAngle :: tokenizeHtmlAux fuel cs
    else if c = '>' then
      HToken.rAngle :: tokenizeHtmlAux fuel cs
    else if c = '/' then
      HToken.slash :: tokenizeHtmlAux fuel cs
    else if c = '=' then
      HToken.equal :: tokenizeHtmlAux fuel cs
    else if c = '"' then
      HToken.quotedText (String.mk (cs.takeWhile (· ≠ '"')))
        :: tokenizeHtmlAux fuel ((cs.dropWhile (· ≠ '"')).drop 1)
    else
      HToken.text (String.mk (c :: cs.takeWhile htmlTextChar))
        :: tokenizeHtmlAux fuel (cs.dropWhile htmlTextChar)

theorem tokenizeHtmlAux_nil (f : Nat) : tokenizeHtmlAux f [] = [] := by
  cases f <;> rfl

/-- Any fuel of at least `cs.length` gives the same scan result: each
step of the loop consumes at least one character. -/
theorem tokenizeHtmlAux_fuel : ∀ f₁ f₂ (cs : List Char),
    cs.length ≤ f₁ → cs.length ≤ f₂ →
    tokenizeHtmlAux f₁ cs = tokenizeHtmlAux f₂ cs := by
  intro f₁
  induction f₁ using Nat.strong_induction_on with
  | _ f₁ ih =>
    intro f₂ cs h1 h2
    cases cs with
    | nil => rw [tokenizeHtmlAux_nil, tokenizeHtmlAux_nil]
    | cons c cs =>
      cases f₁ with
      | zero => simp at h1
      | succ g₁ =>
        cases f₂ with
        | zero => simp at h2
        | succ g₂ =>
          simp only [List.length_cons] at h1 h2
          have hd : (cs.dropWhile (· ≠ '"')).length ≤ cs.length :=
            length_dropWhile_le _ cs
          have ht : (cs.dropWhile htmlTextChar).length ≤ cs.length :=
            length_dropWhile_le _ cs
          have hds : ((cs.dropWhile (· ≠ '"')).drop 1).length ≤ cs.length := by
            simp only [List.length_drop]; omega
          have hdocl : (cs.drop 14).length ≤ cs.length := by
            simp only [List.length_drop]; omega
          simp only [tokenizeHtmlAux]
          split_ifs
          all_goals first
            | rfl
            | (rw [ih g₁ (by omega) g₂ _ (by omega) (by omega)])

/-- `tokenize_html` (src/html.rs:99-149). -/
def tokenize_html (s : String) : List HToken :=
  tokenizeHtmlAux s.data.length s.data

/-! ## Element tree and traversal engine (src/html.rs, `HtmlElement` / `walk_trace`) -/

/-- `HtmlElement` (src/html.rs:25-30). -/
inductive HtmlElement where
  | mk (name : String) (attributes : List (String × String))
       (children : List HtmlElement) (text_node : Option String)

mutual

/-- Structural equality test for `HtmlElement` (the derived `PartialEq`). -/
def HtmlElement.beq : HtmlElement → HtmlElement → Bool
  | .mk n1 a1 c1 t1, .mk n2 a2 c2 t2 =>
    n1 = n2 && a1 = a2 && HtmlElement.beqList c1 c2 && t1 = t2

def HtmlElement.beqList : List HtmlElement → List HtmlElement → Bool
  | [], [] => true
  | x :: xs, y :: ys => HtmlElement.beq x y && HtmlElement.beqList xs ys
  | _, _ => false

end

def HtmlElement.name : HtmlElement → String
  | .mk n _ _ _ => n

def HtmlElement.attributes : HtmlElement → List (String × String)
  | .mk _ a _ _ => a

def HtmlElement.children : HtmlElement → List HtmlElement
  | .mk _ _ cs _ => cs

def HtmlElement.text_node : HtmlElement → Option String
  | .mk _ _ _ t => t

/-- `NodeTrace` (src/html.rs:16): the traversal trace, a list of
(element name, attributes snapshot) pairs. -/
abbrev NodeTrace := List (String × List (String × String))

/-- `NodeTrace::names` (src/html.rs:19-21). -/
def NodeTrace.names (t : NodeTrace) : List String := t.map (·.1)

/-- Induction over an `HtmlElement` tree via its children. -/
theorem HtmlElement.treeInd (P : HtmlElement → Prop)
    (h : ∀ n a cs t, (∀ c ∈ cs, P c) → P (.mk n a cs t)) : ∀ el, P el
  | .mk n a cs t =>
    h n a cs t (fun c hc =>
      have : sizeOf c < sizeOf (HtmlElement.mk n a cs t) := by
        have h1 := List.sizeOf_lt_of_mem hc
        simp only [HtmlElement.mk.sizeOf_spec]
        omega
      HtmlElement.treeInd P h c)
termination_by el => sizeOf el

theorem HtmlElement.beqList_iff (c1 c2 : List HtmlElement)
    (ih : ∀ c ∈ c1, ∀ b, HtmlElement.beq c b = true ↔ c = b) :
    HtmlElement.beqList c1 c2 = true ↔ c1 = c2 := by
  induction c1 generalizing c2 with
  | nil => cases c2 <;> simp [HtmlElement.beqList]
  | cons x xs ihl =>
    cases c2 with
    | nil => simp [HtmlElement.beqList]
    | cons y ys =>
      simp only [HtmlElement.beqList, Bool.and_eq_true, List.cons.injEq]
      rw [ih x (by simp), ihl ys (fun c hc => ih c (by simp [hc]))]

theorem HtmlElement.beq_iff : ∀ a b : HtmlElement, HtmlElement.beq a b = true ↔ a = b := by
  refine HtmlElement.treeInd (fun a => ∀ b, HtmlElement.beq a b = true ↔ a = b) ?_
  intro n1 a1 c1 t1 ih b
  cases b with
  | mk n2 a2 c2 t2 =>
    simp only [HtmlElement.beq, Bool.and_eq_true, decide_eq_true_eq,
      HtmlElement.mk.injEq, HtmlElement.beqList_iff c1 c2 ih]
    tauto

instance : DecidableEq HtmlElement := fun a b =>
  decidable_of_iff (HtmlElement.beq a b = true) (HtmlElement.beq_iff a b)

/-- The trace push at the top of `walk_trace` (src/html.rs:75-77): non-
`textNode` elements push their (name, attributes) pair. -/
def pushTrace (t : NodeTrace) (name : String) (attrs : List (String × String)) : NodeTrace :=
  if name ≠ "textNode" then t ++ [(name, attrs)] else t

section Walk

variable {D : Type _}
  (f : NodeTrace → String → Nat → List (String × String) → List HtmlElement →
       Option String → D → D)
  (g : NodeTrace → String → D → D)

/-- `HtmlElement::walk_trace` (src/html.rs:54-96).  The Rust version threads
the trace through a mutable reference, pushing one entry for non-`textNode`
elements before the `f` call and restoring the previous trace after `g`; the
pure version passes the pushed trace `t'` to `f`, the children and `g`
(restoration is implicit).  The caller state `d` is threaded in sequence:
`f`, then the children in order (each with its index), then `g`. -/
def walk_trace : HtmlElement → NodeTrace → Nat → D → D
  | .mk name attrs children text, t, index, d =>
    let t' := pushTrace t name attrs
    let d1 := f t' name index attrs children text d
    let d2 := walkChildren children t' 0 d1
    g t' name d2
where
  /-- The `for (i, child) in self.children.iter().enumerate()` loop. -/
  walkChildren : List HtmlElement → NodeTrace → Nat → D → D
  | [], _, _, d => d
  | c :: rest, t, i, d => walkChildren rest t (i + 1) (walk_trace c t i d)

/-- `HtmlElement::walk` (src/html.rs:33-52): start with an empty trace and
index 0. -/
def walk (el : HtmlElement) (d : D) : D :=
  walk_trace f g el [] 0 d

end Walk

/-! ## Markup parser (src/html.rs, `HtmlParser`)

The Rust parser is a struct holding the token vector and a position; each
method is modelled as a function of `(ts, pos)` returning a `PResult`
carrying the advanced position.  The `bail!` errors become `.err` with the
expected construct, the remaining token window `tokens[position..]` and the
position, mirroring the format string `"Want {:?}, but got {:?} ({})"`.
A Rust panic (the unchecked `self.tokens[self.position]` index in
`expect`/`expect_text`/`expect_quoted_text`, or the unchecked slice in the
`script` scan loop) becomes `.panic`.  `anyhow`'s `.context(...)` notes only
prepend text to an existing error and are not modelled. -/

/-- The expected construct reported by a parse error. -/
inductive HExpected where
  | tok (t : HToken)
  | text
  | quotedText
deriving DecidableEq, Repr

/-- A structured parse error: expected construct, remaining token window,
position index. -/
structure HParseError where
  expected : HExpected
  window : List HToken
  position : Nat
deriving DecidableEq, Repr

/-- Result of a parser step: success, structured error, or Rust panic. -/
inductive PResult (α : Type _) where
  | ok (a : α)
  | err (e : HParseError)
  | panic
deriving DecidableEq, Repr

def PResult.bind : PResult α → (α → PResult β) → PResult β
  | .ok a, k => k a
  | .err e, _ => .err e
  | .panic, _ => .panic

/-- `HtmlParser::expect` (src/html.rs:232-244).  `self.tokens[self.position]`
is indexed without a bounds check, so a position at or past the end panics. -/
def expectTok (ts : List HToken) (pos : Nat) (t : HToken) : PResult Nat :=
  if h : pos < ts.length then
    if ts.get ⟨pos, h⟩ = t then .ok (pos + 1)
    else .err ⟨.tok t, ts.drop pos, pos⟩
  else .panic

/-- `HtmlParser::expect_text` (src/html.rs:246-257). -/
def expectText (ts : List HToken) (pos : Nat) : PResult (String × Nat) :=
  if h : pos < ts.length then
    match ts.get ⟨pos, h⟩ with
    | .text s => .ok (s, pos + 1)
    | _ => .err ⟨.text, ts.drop pos, pos⟩
  else .panic

/-- `HtmlParser::expect_quoted_text` (src/html.rs:259-270). -/
def expectQuoted (ts : List HToken) (pos : Nat) : PResult (String × Nat) :=
  if h : pos < ts.length then
    match ts.get ⟨pos, h⟩ with
    | .quotedText s => .ok (s, pos + 1)
    | _ => .err ⟨.quotedText, ts.drop pos, pos⟩
  else .panic

/-- `HtmlParser::attribute` (src/html.rs:272-277): `key '=' quoted-value`. -/
def attributeP (ts : List HToken) (pos : Nat) : PResult ((String × String) × Nat) :=
  (expectText ts pos).bind fun (key, p1) =>
    (expectTok ts p1 .equal).bind fun p2 =>
      (expectQuoted ts p2).bind fun (value, p3) =>
        .ok ((key, value), p3)

theorem expectTok_ok (h : expectTok ts pos t = .ok p') :
    p' = pos + 1 ∧ pos < ts.length ∧ ts.get? pos = some t := by
  unfold expectTok at h
  split at h
  · rename_i hlt
    split at h
    · rename_i hget
      injection h with h
      exact ⟨h.symm, hlt, by rw [List.get?_eq_get hlt, hget]⟩
    · exact absurd h (by simp)
  · exact absurd h (by simp)

theorem expectText_ok (h : expectText ts pos = .ok (s, p')) :
    p' = pos + 1 ∧ pos < ts.length ∧ ts.get? pos = some (.text s) := by
  unfold expectText at h
  split at h
  · rename_i hlt
    split at h
    · rename_i s0 hget
      injection h with h
      injection h with h1 h2
      subst h1
      refine ⟨h2.symm, hlt, ?_⟩
      rw [List.get?_eq_get hlt, hget]
    · exact absurd h (by simp)
  · exact absurd h (by simp)

theorem expectQuoted_ok (h : expectQuoted ts pos = .ok (s, p')) :
    p' = pos + 1 ∧ pos < ts.length ∧ ts.get? pos = some (.quotedText s) := by
  unfold expectQuoted at h
  split at h
  · rename_i hlt
    split at h
    · rename_i s0 hget
      injection h with h
      injection h with h1 h2
      subst h1
      refine ⟨h2.symm, hlt, ?_⟩
      rw [List.get?_eq_get hlt, hget]
    · exact absurd h (by simp)
  · exact absurd h (by simp)

theorem attributeP_ok (h : attributeP ts pos = .ok (kv, p')) :
    pos < p' ∧ p' ≤ ts.length := by
  unfold attributeP at h
  cases h1 : expectText ts pos with
  | ok a =>
    obtain ⟨key, p1⟩ := a
    rw [h1] at h
    simp only [PResult.bind] at h
    cases h2 : expectTok ts p1 .equal with
    | ok p2 =>
      rw [h2] at h
      simp only [PResult.bind] at h
      cases h3 : expectQuoted ts p2 with
      | ok b =>
        obtain ⟨value, p3⟩ := b
        rw [h3] at h
        simp only [PResult.bind] at h
        injection h with h
        injection h with _ hp
        obtain ⟨e1, l1, -⟩ := expectText_ok h1
        obtain ⟨e2, l2, -⟩ := expectTok_ok h2
        obtain ⟨e3, l3, -⟩ := expectQuoted_ok h3
        omega
      | err e => rw [h3] at h; exact absurd h (by simp [PResult.bind])
      | panic => rw [h3] at h; exact absurd h (by simp [PResult.bind])
    | err e => rw [h2] at h; exact absurd h (by simp [PResult.bind])
    | panic => rw [h2] at h; exact absurd h (by simp [PResult.bind])
  | err e => rw [h1] at h; exact absurd h (by simp [PResult.bind])
  | panic => rw [h1] at h; exact absurd h (by simp [PResult.bind])

/-- `HtmlParser::attributes` (src/html.rs:279-287): repeat `attribute` while
the upcoming token is neither `>` nor `/` (a missing upcoming token also
continues the loop, and the inner `expect_text` then panics).  Structural
fuel: each iteration consumes three tokens, so the canonical fuel in
`attributesP` never runs out; fuel exhaustion is mapped to `.panic` but is
unreachable from the canonical entry point. -/
def attributesPF : Nat → List HToken → Nat → PResult (List (String × String) × Nat)
  | 0, _, _ => .panic
  | fuel + 1, ts, pos =>
    if ts.get? pos ≠ some .rAngle ∧ ts.get? pos ≠ some .slash then
      (attributeP ts pos).bind fun (kv, p') =>
        (attributesPF fuel ts p').bind fun (rest, p'') => .ok (kv :: rest, p'')
    else
      .ok ([], pos)

def attributesP (ts : List HToken) (pos : Nat) : PResult (List (String × String) × Nat) :=
  attributesPF (ts.length + 1) ts pos

/-- The closing sequence `< / script >` looked for by the `script` scan. -/
def scriptClose : List HToken := [.lAngle, .slash, .text "script", .rAngle]

/-- The `script` content scan (src/html.rs:322-329): advance one token at a
time until the literal closing sequence starts at the current position.  The
Rust slice `self.tokens[self.position..]` panics once the position exceeds
the length, which happens exactly when no closing sequence remains.
Structural fuel as in `attributesPF`. -/
def scriptScanF : Nat → List HToken → Nat → PResult Nat
  | 0, _, _ => .panic
  | fuel + 1, ts, pos =>
    if pos ≤ ts.length then
      if scriptClose.isPrefixOf (ts.drop pos) then .ok pos
      else scriptScanF fuel ts (pos + 1)
    else .panic

def scriptScan (ts : List HToken) (pos : Nat) : PResult Nat :=
  scriptScanF (ts.length + 2) ts pos

/-- The closing-tag lookahead `< /` used by `HtmlParser::elements`. -/
def closeLookahead : List HToken := [.lAngle, .slash]

mutual

/-- `HtmlParser::element` (src/html.rs:289-358).  A leading bare-text token
becomes a `textNode` leaf; otherwise `'<' name attribute*` followed by either
`'/' '>'` (self-closing), or `'>'` and the name-specific body rules
(`meta`: no body; `script`: opaque scan to `< / script >`; otherwise
children via `elements` and a closing tag that must repeat the name).
Structural fuel shared by the `element`/`elements` recursion; every
`elements` iteration strictly advances the position, so the canonical fuel
of `elementP` never runs out. -/
def elementPF : Nat → List HToken → Nat → PResult (HtmlElement × Nat)
  | 0, _, _ => .panic
  | fuel + 1, ts, pos =>
    match ts.get? pos with
    | some (.text s) => .ok (.mk "textNode" [] [] (some s), pos + 1)
    | _ =>
      (expectTok ts pos .lAngle).bind fun p1 =>
      (expectText ts p1).bind fun (name, p2) =>
      (attributesP ts p2).bind fun (attrs, p3) =>
      if ts.get? p3 = some .slash then
        (expectTok ts p3 .slash).bind fun p4 =>
        (expectTok ts p4 .rAngle).bind fun p5 =>
        .ok (.mk name attrs [] none, p5)
      else
        (expectTok ts p3 .rAngle).bind fun p4 =>
        if name = "meta" then
          .ok (.mk name attrs [] none, p4)
        else if name = "script" then
          (scriptScan ts p4).bind fun p5 =>
          (expectTok ts p5 .lAngle).bind fun p6 =>
          (expectTok ts p6 .slash).bind fun p7 =>
          (expectTok ts p7 (.text "script")).bind fun p8 =>
          (expectTok ts p8 .rAngle).bind fun p9 =>
          .ok (.mk name attrs [] none, p9)
        else
          (elementsPF fuel ts p4).bind fun (children, p5) =>
          (expectTok ts p5 .lAngle).bind fun p6 =>
          (expectTok ts p6 .slash).bind fun p7 =>
          (expectTok ts p7 (.text name)).bind fun p8 =>
          (expectTok ts p8 .rAngle).bind fun p9 =>
          .ok (.mk name attrs children none, p9)

/-- `HtmlParser::elements` (src/html.rs:360-372): repeat `element` while
tokens remain and the upcoming tokens are not the closing-tag lookahead
`< /`. -/
def elementsPF : Nat → List HToken → Nat → PResult (List HtmlElement × Nat)
  | 0, _, _ => .panic
  | fuel + 1, ts, pos =>
    if pos < ts.length ∧ ¬ closeLookahead.isPrefixOf (ts.drop pos) then
      (elementPF fuel ts pos).bind fun (el, p') =>
        (elementsPF fuel ts p').bind fun (rest, p'') => .ok (el :: rest, p'')
    else .ok ([], pos)

end

/-- Canonical fuel: the `element`/`elements` recursion nests at most one
level per remaining token (each recursive descent first consumes the tokens
`'<' name ... '>'`), so `2 * length + 8` strictly bounds the recursion
depth reachable from position 0. -/
def elementP (ts : List HToken) (pos : Nat) : PResult (HtmlElement × Nat) :=
  elementPF (2 * ts.length + 8) ts pos

def elementsP (ts : List HToken) (pos : Nat) : PResult (List HtmlElement × Nat) :=
  elementsPF (2 * ts.length + 8) ts pos

/-- `parse_html` (src/html.rs:375-384): tokenize and parse a single
`element` from position 0; remaining tokens are not examined. -/
def parse_html (s : String) : PResult HtmlElement :=
  (elementP (tokenize_html s) 0).bind fun (el, _) => .ok el

/-! ## Style lexer and parser (src/css.rs)

Same modelling conventions as the markup parser.  The CSS error type reuses
`HParseError` with `HExpected.text` standing for `expect_ident`'s "Want text"
and `HExpected.tok` unused; to keep the window's type, a distinct error
record over CSS tokens is used instead. -/

/-- Token type of the style lexer (enum `Token` in src/css.rs). -/
inductive CToken where
  | lBrace
  | rBrace
  | colon
  | semiColon
  | ident (s : String)
deriving DecidableEq, Repr

/-- Characters that extend an identifier run in `tokenize_css`
(the loop condition at src/css.rs:37-43). -/
def cssIdentChar (c : Char) : Bool :=
  !rustIsWhitespace c && c ≠ '{' && c ≠ '}' && c ≠ ':' && c ≠ ';'

/-- The scan loop of `tokenize_css` (src/css.rs:17-49); structural fuel as
in `tokenizeHtmlAux`. -/
def tokenizeCssAux : Nat → List Char → List CToken
  | _, [] => []
  | 0, _ :: _ => []
  | fuel + 1, c :: cs =>
    if rustIsWhitespace c then
      tokenizeCssAux fuel cs
    else if c = '{' then
      CToken.lBrace :: tokenizeCssAux fuel cs
    else if c = '}' then
      CToken.rBrace :: tokenizeCssAux fuel cs
    else if c = ':' then
      CToken.colon :: tokenizeCssAux fuel cs
    else if c = ';' then
      CToken.semiColon :: tokenizeCssAux fuel cs
    else
      CToken.ident (String.mk (c :: cs.takeWhile cssIdentChar))
        :: tokenizeCssAux fuel (cs.dropWhile cssIdentChar)

/-- `tokenize_css` (src/css.rs:12-52). -/
def tokenize_css (s : String) : List CToken :=
  tokenizeCssAux s.data.length s.data

/-- The expected construct of a style parse error. -/
inductive CExpected where
  | tok (t : CToken)
  | ident
  | other
deriving DecidableEq, Repr

/-- Structured style parse error (same shape as the markup one). -/
structure CParseError where
  expected : CExpected
  window : List CToken
  position : Nat
deriving DecidableEq, Repr

/-- Result of a style parser step. -/
inductive CResult (α : Type _) where
  | ok (a : α)
  | err (e : CParseError)
  | panic
deriving DecidableEq, Repr

def CResult.bind : CResult α → (α → CResult β) → CResult β
  | .ok a, k => k a
  | .err e, _ => .err e
  | .panic, _ => .panic

/-- `Style` (src/css.rs:59-63): optional selector plus (property, value)
declaration pairs. -/
structure Style where
  selector : Option String
  rules : List (String × String)
deriving DecidableEq, Repr

/-- `CssParser::expect` (src/css.rs:86-98); unchecked index, like the markup
parser's. -/
def cExpectTok (ts : List CToken) (pos : Nat) (t : CToken) : CResult Nat :=
  if h : pos < ts.length then
    if ts.get ⟨pos, h⟩ = t then .ok (pos + 1)
    else .err ⟨.tok t, ts.drop pos, pos⟩
  else .panic

/-- `CssParser::expect_ident` (src/css.rs:100-111). -/
def cExpectIdent (ts : List CToken) (pos : Nat) : CResult (String × Nat) :=
  if h : pos < ts.length then
    match ts.get ⟨pos, h⟩ with
    | .ident s => .ok (s, pos + 1)
    | _ => .err ⟨.ident, ts.drop pos, pos⟩
  else .panic

theorem cExpectTok_ok (h : cExpectTok ts pos t = .ok p') :
    p' = pos + 1 ∧ pos < ts.length ∧ ts.get? pos = some t := by
  unfold cExpectTok at h
  split at h
  · rename_i hlt
    split at h
    · rename_i hget
      injection h with h
      exact ⟨h.symm, hlt, by rw [List.get?_eq_get hlt, hget]⟩
    · exact absurd h (by simp)
  · exact absurd h (by simp)

theorem cExpectIdent_ok (h : cExpectIdent ts pos = .ok (s, p')) :
    p' = pos + 1 ∧ pos < ts.length ∧ ts.get? pos = some (.ident s) := by
  unfold cExpectIdent at h
  split at h
  · rename_i hlt
    split at h
    · rename_i s0 hget
      injection h with h
      injection h with h1 h2
      subst h1
      exact ⟨h2.symm, hlt, by rw [List.get?_eq_get hlt, hget]⟩
    · exact absurd h (by simp)
  · exact absurd h (by simp)

/-- One iteration body of `CssParser::rules` (src/css.rs:151-156):
`ident ':' ident ';'`. -/
def ruleP (ts : List CToken) (pos : Nat) : CResult ((String × String) × Nat) :=
  (cExpectIdent ts pos).bind fun (key, p1) =>
    (cExpectTok ts p1 .colon).bind fun p2 =>
      (cExpectIdent ts p2).bind fun (value, p3) =>
        (cExpectTok ts p3 .semiColon).bind fun p4 =>
          .ok ((key, value), p4)

/-- Whether the upcoming token is an identifier (the `while let
Some(Token::Ident(_)) = self.peek()` guard of `rules`). -/
def peekIsIdent (ts : List CToken) (pos : Nat) : Bool :=
  match ts.get? pos with
  | some (.ident _) => true
  | _ => false

/-- `CssParser::rules` (src/css.rs:148-160); structural fuel: each
iteration consumes four tokens, so the canonical fuel in `rulesP` never
runs out. -/
def rulesPF : Nat → List CToken → Nat → CResult (List (String × String) × Nat)
  | 0, _, _ => .panic
  | fuel + 1, ts, pos =>
    if peekIsIdent ts pos then
      (ruleP ts pos).bind fun (kv, p') =>
        (rulesPF fuel ts p').bind fun (rest, p'') => .ok (kv :: rest, p'')
    else
      .ok ([], pos)

def rulesP (ts : List CToken) (pos : Nat) : CResult (List (String × String) × Nat) :=
  rulesPF (ts.length + 1) ts pos

/-- `CssParser::style` (src/css.rs:123-146): an identifier, then either a
`{ rules }` block (the identifier is the selector) or — when the next token
is a colon — a rewind to the saved position and a bare `rules` list. -/
def styleP (ts : List CToken) (pos : Nat) : CResult (Style × Nat) :=
  (cExpectIdent ts pos).bind fun (ident, p1) =>
    match ts.get? p1 with
    | some .lBrace =>
      (cExpectTok ts p1 .lBrace).bind fun p2 =>
      (rulesP ts p2).bind fun (rules, p3) =>
      (cExpectTok ts p3 .rBrace).bind fun p4 =>
      .ok (⟨some ident, rules⟩, p4)
    | some .colon =>
      (rulesP ts pos).bind fun (rules, p2) =>
      .ok (⟨none, rules⟩, p2)
    | _ => .err ⟨.other, [], pos⟩

/-- `CssParser::styles` (src/css.rs:113-121): repeat `style` until the
tokens are exhausted.  Structural fuel: every successful `style` consumes at
least one token (its leading identifier), so the canonical fuel in
`stylesP` never runs out. -/
def stylesPF : Nat → List CToken → Nat → CResult (List Style × Nat)
  | 0, _, _ => .panic
  | fuel + 1, ts, pos =>
    if pos < ts.length then
      (styleP ts pos).bind fun (st, p') =>
        (stylesPF fuel ts p').bind fun (rest, p'') => .ok (st :: rest, p'')
    else
      .ok ([], pos)

def stylesP (ts : List CToken) (pos : Nat) : CResult (List Style × Nat) :=
  stylesPF (ts.length + 1) ts pos

/-- `parse_css` (src/css.rs:163-172): tokenize and parse `styles`; the
`Styles` wrapper struct is modelled as the bare list it contains. -/
def parse_css (s : String) : CResult (List Style) :=
  (stylesP (tokenize_css s) 0).bind fun (sts, _) => .ok sts

/-! ## The reference layout policy (src/main.rs, the `RedrawRequested` walk)

The enter/leave closures passed to `html.walk` in `window_event`
(src/main.rs:125-316) are modelled as pure state transformers over
`RendererState`.  Drawing calls go to the canvas (an external collaborator)
and have no effect on the state; the text collaborators are the oracles
`m` (glyph measurement: width and height of a rendered string) and `b`
(whether `TextBlob::from_str` succeeds).  `.unwrap()` panics and the panic
of `u32::from_str_radix`/`parse::<f32>` abort the walk: the state type is
`Option RendererState`, `none` meaning the process has panicked. -/

/-- The `layout: HashMap<String, String>` of `RendererState`, as an
association list with insert-overwrites semantics.  Only `get`, `insert`
and key removal are used by the source, so lookup determines all observable
behaviour. -/
abbrev Layout := List (String × String)

def layoutGet (l : Layout) (k : String) : Option String :=
  (l.find? (fun p => p.1 = k)).map (·.2)

def layoutInsert (l : Layout) (k v : String) : Layout :=
  (k, v) :: l.filter (fun p => p.1 ≠ k)

/-- `str::starts_with` on whole strings, computed on the character lists. -/
def strStartsWith (s pre : String) : Bool :=
  pre.data.isPrefixOf s.data

/-- The scope-cleanup sweep of the leave closure (src/main.rs:303-312):
remove every key that starts with the given prefix. -/
def layoutRemovePrefix (l : Layout) (pre : String) : Layout :=
  l.filter (fun p => !strStartsWith p.1 pre)

/-- `str::trim_end_matches("px")`: strip every trailing occurrence of
`px` (done on the reversed character list to keep recursion structural). -/
def stripPxRev : List Char → List Char
  | 'x' :: 'p' :: r => stripPxRev r
  | l => l

def trimEndPx (s : String) : String :=
  String.mk (stripPxRev s.data.reverse).reverse

def digitsVal (ds : List Char) : Nat :=
  ds.foldl (fun n c => n * 10 + (c.toNat - 48)) 0

/-- `str::parse::<f32>()`, modelled over exact rationals on the decimal
forms `[sign] digits [. digits]` (the forms the gap values of this program
can take); the exotic float forms (exponents, `inf`, `nan`) are not
modelled.  `none` models a parse error, which the caller unwraps into a
panic. -/
def parseF32 (s : String) : Option Rat :=
  let signed : Bool × List Char :=
    match s.data with
    | '-' :: r => (true, r)
    | '+' :: r => (false, r)
    | cs => (false, cs)
  let neg := signed.1
  let cs := signed.2
  let ip := cs.takeWhile Char.isDigit
  let rest := cs.dropWhile Char.isDigit
  let value : Option Rat :=
    match rest with
    | [] => if ip.isEmpty then none else some (digitsVal ip)
    | '.' :: fr =>
      if (!ip.isEmpty || !fr.isEmpty) && fr.all Char.isDigit then
        some ((digitsVal ip : Rat) + (digitsVal fr : Rat) / ((10 : Rat) ^ fr.length))
      else none
    | _ => none
  value.map fun q => if neg then -q else q

def isHexDigitCh (c : Char) : Bool :=
  c.isDigit || ('a' ≤ c && c ≤ 'f') || ('A' ≤ c && c ≤ 'F')

def hexDigitsVal (ds : List Char) : Nat :=
  ds.foldl (fun n c =>
    16 * n + (if c.isDigit then c.toNat - 48 else if 'a' ≤ c then c.toNat - 87 else c.toNat - 55)) 0

/-- `str::trim_start_matches("#")`: strip every leading `#`. -/
def stripHashes : List Char → List Char
  | '#' :: r => stripHashes r
  | l => l

/-- Whether `u32::from_str_radix(s, 16)` succeeds: an optional `+` sign,
then a non-empty run of hex digits whose value fits in 32 bits. -/
def fromStrRadix16Ok (cs : List Char) : Bool :=
  let ds := match cs with | '+' :: r => r | _ => cs
  !ds.isEmpty && ds.all isHexDigitCh && hexDigitsVal ds < 2 ^ 32

/-- Whether `PaintExt::set_color_hex` (src/main.rs:32-36) succeeds; on
failure the `.unwrap()` in it panics.  The resulting colour only goes to
the canvas, so success is all that is modelled. -/
def set_color_hex_ok (s : String) : Bool :=
  fromStrRadix16Ok (stripHashes s.data)

/-- `RendererState` (src/main.rs:21-26).  Rectangles are (left, top, right,
bottom) over exact rationals. -/
structure RendererState where
  hyper_links : List ((Rat × Rat × Rat × Rat) × String)
  current_color : String
  cursor_position : Rat × Rat
  layout : Layout
deriving DecidableEq

/-- The initial state built in `window_event` (src/main.rs:118-123):
cursor at (25, 120 + 36). -/
def RendererState.init : RendererState :=
  ⟨[], "#000000", (25, 156), []⟩

/-- `trace.names().join(":")`. -/
def joinNames (names : List String) : String :=
  String.intercalate ":" names

/-- The key inserted for child `i` when a `display:flex` declaration with a
`gap` is found (src/main.rs:155-163):
`join(trace) ++ ":" ++ childName ++ "[i]" ++ ".gap-left"`. -/
def childGapKey (names : List String) (cname : String) (i : Nat) : String :=
  joinNames names ++ ":" ++ cname ++ "[" ++ toString i ++ "]" ++ "." ++ "gap-left"

/-- The key looked up for the current node's own gap (src/main.rs:266-271):
`join(trace) ++ "[index]" ++ ".gap-left"` (note: no `:` separator before
the bracket). -/
def gapKey (names : List String) (index : Nat) : String :=
  joinNames names ++ "[" ++ toString index ++ "]" ++ "." ++ "gap-left"

/-- Processing of one parsed style record (src/main.rs:139-167): if its
declarations name `display` with value `flex`, the `gap` declaration is
looked up (`.unwrap()` panics when it is absent) and one override entry per
non-first child is inserted. -/
def styleFlexInserts (names : List String) (children : List HtmlElement)
    (st : Style) (l : Layout) : Option Layout :=
  match st.rules.find? (fun p => p.1 = "display") with
  | some (_, d) =>
    if d = "flex" then
      match st.rules.find? (fun p => p.1 = "gap") with
      | some (_, gapStr) =>
        some (children.enum.foldl
          (fun acc ic =>
            if ic.1 = 0 then acc
            else layoutInsert acc (childGapKey names ic.2.name ic.1) gapStr) l)
      | none => none
    else some l
  | none => some l

/-- The style-attribute handling at the top of the enter closure
(src/main.rs:134-170): find a `style` attribute, parse it (`.unwrap()`
panics on a parse failure), and process each record. -/
def styleInserts (names : List String) (children : List HtmlElement)
    (attrs : List (String × String)) (l : Layout) : Option Layout :=
  match attrs.find? (fun p => p.1 = "style") with
  | some (_, sty) =>
    match parse_css sty with
    | .ok styles => styles.foldl (fun ol st => ol.bind (styleFlexInserts names children st)) (some l)
    | _ => none
  | none => some l

/-- The gap computed for the current node (src/main.rs:266-286): the
override entry at the node's synthetic key, `px`-stripped and parsed, when
present and the node is not a text node; 8 for a text node (entry or not);
0 otherwise.  `none` models the `parse::<f32>().unwrap()` panic. -/
def gapOf (l : Layout) (key : String) (is_text_node : Bool) : Option Rat :=
  match layoutGet l key with
  | some gap_left =>
    if !is_text_node then parseF32 (trimEndPx gap_left)
    else some 8
  | none => some (if is_text_node then 8 else 0)

/-- The anchor handling inside the text-drawing phase
(src/main.rs:231-253): push a hyperlink hit-box, using the last trace entry
(`trace.0.last().unwrap()` panics on an empty trace) and its `href`
attribute (`.unwrap()` panics when absent). -/
def anchorPush (m : String → Rat × Rat) (txt : String) (t : NodeTrace)
    (s : RendererState) : Option RendererState :=
  match t.getLast? with
  | some pa =>
    match pa.2.find? (fun p => p.1 = "href") with
    | some (_, href) =>
      some { s with hyper_links := s.hyper_links ++
        [((s.cursor_position.1, s.cursor_position.2 - 32,
           s.cursor_position.1 + (m txt).1, s.cursor_position.2 + (m txt).2 - 32), href)] }
    | none => none
  | none => none

/-- The text-drawing phase of the in-body branch (src/main.rs:212-260):
when there is a text payload and `TextBlob::from_str` succeeds, set the
colour (hex parse of the current colour may panic for non-anchors), push a
hyperlink hit-box for anchors, and advance the cursor by the measured
width. -/
def textPhase (m : String → Rat × Rat) (b : String → Bool)
    (t : NodeTrace) (is_anchor : Bool) (text_node : Option String)
    (s : RendererState) : Option RendererState :=
  match text_node with
  | none => some s
  | some txt =>
    if b txt then
      if is_anchor || set_color_hex_ok s.current_color then
        (if is_anchor then anchorPush m txt t s else some s).bind fun s1 =>
        some { s1 with cursor_position := (s1.cursor_position.1 + (m txt).1, s1.cursor_position.2) }
      else none
    else some s

/-- One iteration of the `body` branch's attribute loop
(src/main.rs:192-208): `bgcolor` is parsed as a hex colour (panic on
failure) and painted; `text` replaces the current colour. -/
def bodyAttrStep (os : Option RendererState) (kv : String × String) : Option RendererState :=
  os.bind fun st =>
    if kv.1 = "bgcolor" then
      if set_color_hex_ok kv.2 then some st else none
    else if kv.1 = "text" then some { st with current_color := kv.2 }
    else some st

/-- The enter closure (src/main.rs:126-294) as a state transformer. -/
def renderEnterStep (m : String → Rat × Rat) (b : String → Bool)
    (t : NodeTrace) (name : String) (index : Nat)
    (attrs : List (String × String)) (children : List HtmlElement)
    (text_node : Option String) (s : RendererState) : Option RendererState :=
  (styleInserts (NodeTrace.names t) children attrs s.layout).bind fun l1 =>
  let s1 : RendererState := { s with layout := l1 }
  if (NodeTrace.names t).getLast? = some "title" then
    -- title branch (src/main.rs:175-191): `child.text_node.unwrap()`
    -- panics when a child is not a text leaf; drawing the title does not
    -- change the state
    if children.all (fun c => c.text_node.isSome) then some s1 else none
  else if name = "body" then
    -- body branch (src/main.rs:192-208)
    attrs.foldl bodyAttrStep (some s1)
  else if (NodeTrace.names t).contains "body" then
    -- in-body branch (src/main.rs:209-293)
    let is_anchor := (NodeTrace.names t).getLast? = some "a"
    let is_text_node := text_node.isSome
    (textPhase m b t is_anchor text_node s1).bind fun s2 =>
    if name = "br" then
      some { s2 with cursor_position := (25, s2.cursor_position.2 + 36) }
    else
      (gapOf s2.layout (gapKey (NodeTrace.names t) index) is_text_node).bind fun gap =>
      some { s2 with cursor_position := (s2.cursor_position.1 + gap, s2.cursor_position.2) }
  else
    some s1

/-- The leave closure (src/main.rs:296-314): a forced line break after
`div`, then removal of every override key under the current trace path. -/
def renderLeaveStep (t : NodeTrace) (name : String) (s : RendererState) : RendererState :=
  let s1 := if name = "div" then
    { s with cursor_position := (25, s.cursor_position.2 + 36) } else s
  { s1 with layout := layoutRemovePrefix s1.layout (joinNames (NodeTrace.names t) ++ ":") }

/-- The enter closure lifted to the panic-propagating walk state. -/
def renderEnter (m : String → Rat × Rat) (b : String → Bool) :
    NodeTrace → String → Nat → List (String × String) → List HtmlElement →
    Option String → Option RendererState → Option RendererState :=
  fun t n i a cs tx os => os.bind (renderEnterStep m b t n i a cs tx)

def renderLeave : NodeTrace → String → Option RendererState → Option RendererState :=
  fun t n os => os.map (renderLeaveStep t n)

/-- The walk of one subtree under the layout policy, from a given trace,
child index and state (`none` = already panicked). -/
def renderWalkNode (m : String → Rat × Rat) (b : String → Bool)
    (el : HtmlElement) (t : NodeTrace) (idx : Nat)
    (os : Option RendererState) : Option RendererState :=
  walk_trace (renderEnter m b) renderLeave el t idx os

/-- The full walk `html.walk(enter, leave, state)` (src/main.rs:125-316). -/
def renderRun (m : String → Rat × Rat) (b : String → Bool)
    (el : HtmlElement) (s0 : RendererState) : Option RendererState :=
  walk (renderEnter m b) renderLeave el (some s0)

/-- One logged enter invocation of the layout walk: the trace names, node
name, child index and text payload passed to the closure, the layout map
after the enter closure ran (the closure performs its insertions before its
only lookup, so this is also the map its gap lookup consulted), and the
cursor x before/after. -/
structure REvent where
  traceNames : List String
  name : String
  index : Nat
  text : Option String
  layoutAfter : Layout
  xBefore : Rat
  xAfter : Rat
deriving DecidableEq

/-- The enter closure instrumented to log one `REvent` per completed
invocation (ghost data: the state component evolves exactly as in
`renderEnter`). -/
def renderEnterLog (m : String → Rat × Rat) (b : String → Bool) :
    NodeTrace → String → Nat → List (String × String) → List HtmlElement →
    Option String → Option RendererState × List REvent →
    Option RendererState × List REvent :=
  fun t n i a cs tx d =>
    match d with
    | (some s, log) =>
      match renderEnterStep m b t n i a cs tx s with
      | some s1 =>
        (some s1, log ++ [⟨NodeTrace.names t, n, i, tx, s1.layout,
          s.cursor_position.1, s1.cursor_position.1⟩])
      | none => (none, log)
    | (none, log) => (none, log)

def renderLeaveLog : NodeTrace → String →
    Option RendererState × List REvent → Option RendererState × List REvent :=
  fun t n d => (d.1.map (renderLeaveStep t n), d.2)

/-- The sequence of enter invocations logged by a full walk. -/
def renderLog (m : String → Rat × Rat) (b : String → Bool)
    (el : HtmlElement) (s0 : RendererState) : List REvent :=
  (walk (renderEnterLog m b) renderLeaveLog el (some s0, [])).2

/-! ## Observation of the traversal engine itself

To settle the claims about `walk_trace`'s callback protocol, the walk is
instantiated with callbacks that only record their invocations. -/

/-- One callback invocation of `walk_trace`: the arguments passed to the
enter callback `f` (children omitted) or to the leave callback `g`. -/
inductive TEvent where
  | enter (trace : NodeTrace) (name : String) (index : Nat)
          (attrs : List (String × String)) (text : Option String)
  | leave (trace : NodeTrace) (name : String)
deriving DecidableEq

def recordEnter : NodeTrace → String → Nat → List (String × String) →
    List HtmlElement → Option String → List TEvent → List TEvent :=
  fun t n i a _ tx log => log ++ [.enter t n i a tx]

def recordLeave : NodeTrace → String → List TEvent → List TEvent :=
  fun t n log => log ++ [.leave t n]

/-- The callback invocations of a subtree walk from trace `t` and index
`idx`. -/
def traceLogFrom (el : HtmlElement) (t : NodeTrace) (idx : Nat) : List TEvent :=
  walk_trace recordEnter recordLeave el t idx []

/-- The callback invocations of `HtmlElement::walk`. -/
def traceLog (el : HtmlElement) : List TEvent :=
  walk recordEnter recordLeave el []

def TEvent.enterProj : TEvent → Option (String × Nat × List (String × String) × Option String)
  | .enter _ n i a tx => some (n, i, a, tx)
  | .leave _ _ => none

def TEvent.leaveProj : TEvent → Option String
  | .leave _ n => some n
  | .enter _ _ _ _ _ => none

def TEvent.enterTraceProj : TEvent → Option (NodeTrace × String)
  | .enter t n _ _ _ => some (t, n)
  | .leave _ _ => none

/-! ## Specification-side enumerations of a tree

Independent recursions stating which nodes a document-order traversal
should visit, with their non-`textNode` ancestor traces and child indices;
the claim theorems compare the engine's callback log against these. -/

/-- The trace entry a node contributes as an ancestor: its (name,
attributes) pair, except for `textNode` leaves which contribute nothing. -/
def visiblePair (el : HtmlElement) : NodeTrace :=
  if el.name ≠ "textNode" then [(el.name, el.attributes)] else []

mutual

/-- Pre-order enumeration of the subtree rooted at `el`, whose non-text
ancestors (root to parent) are `anc` and whose index in its parent is `i`:
each node before its children, children in order. -/
def annotPre (anc : NodeTrace) (i : Nat) : HtmlElement → List (NodeTrace × Nat × HtmlElement)
  | el@(.mk _ _ cs _) => (anc, i, el) :: annotPreList (anc ++ visiblePair el) 0 cs

def annotPreList (anc : NodeTrace) (i : Nat) : List HtmlElement → List (NodeTrace × Nat × HtmlElement)
  | [] => []
  | c :: rest => annotPre anc i c ++ annotPreList anc (i + 1) rest

end

mutual

/-- Post-order enumeration: each node after its children. -/
def annotPost (anc : NodeTrace) (i : Nat) : HtmlElement → List (NodeTrace × Nat × HtmlElement)
  | el@(.mk _ _ cs _) => annotPostList (anc ++ visiblePair el) 0 cs ++ [(anc, i, el)]

def annotPostList (anc : NodeTrace) (i : Nat) : List HtmlElement → List (NodeTrace × Nat × HtmlElement)
  | [] => []
  | c :: rest => annotPost anc i c ++ annotPostList anc (i + 1) rest

end

/-! ## The claims, stated the way the spec states them

Definitions in this section follow the spec's words (to be compared against
the behaviour of the definitions above, which follow the source); they are
clearly named `claim...`. -/

/-- Token-level `parse_html`: parse one `element` from position 0 and
discard the final position (what `parse_html` does after tokenizing). -/
def parseHtmlTokens (ts : List HToken) : PResult HtmlElement :=
  (elementP ts 0).bind fun r => .ok r.1

/-- The width by which the in-body text phase advances the cursor: the
measured width when there is a text payload and the text blob succeeds. -/
def textAdv (m : String → Rat × Rat) (b : String → Bool) : Option String → Rat
  | none => 0
  | some txt => if b txt then (m txt).1 else 0

/-- Claim C2's gap, read literally from the spec: "the override recorded for
this node's synthetic key if present (parsed as a numeric pixel value with a
`px` suffix stripped), else a default of 8 units if this node is a text
leaf, else 0". -/
def claimGap (l : Layout) (key : String) (is_text_node : Bool) : Rat :=
  match layoutGet l key with
  | some g => (parseF32 (trimEndPx g)).getD 0
  | none => if is_text_node then 8 else 0

/-- Claim C2, stated literally: every node visited inside the body whose
name is not `br` advances the cursor's x by the measured width plus
`claimGap`. -/
def claimC2Statement : Prop :=
  ∀ (m : String → Rat × Rat) (b : String → Bool) (el : HtmlElement)
    (s0 : RendererState) (ev : REvent), ev ∈ renderLog m b el s0 →
    ev.traceNames.contains "body" = true → ev.name ≠ "br" →
    ev.xAfter = ev.xBefore + textAdv m b ev.text +
      claimGap ev.layoutAfter (gapKey ev.traceNames ev.index) ev.text.isSome

/-- Claim C1, stated literally: the trace passed to every node's enter
callback is the node's non-`textNode` ancestor list from the root down to
its parent — the node's own pair not included. -/
def claimC1Statement : Prop :=
  ∀ el : HtmlElement, (traceLog el).filterMap TEvent.enterTraceProj =
    (annotPre [] 0 el).map (fun x => (x.1, x.2.2.name))

/-- Claim C5, stated literally: every bare-text token is a non-empty run
with no whitespace and none of `<`, `>`, `=`, `"`. -/
def claimC5Statement : Prop :=
  ∀ (s txt : String), HToken.text txt ∈ tokenize_html s →
    txt ≠ "" ∧ ∀ c ∈ txt.data,
      rustIsWhitespace c = false ∧ c ≠ '<' ∧ c ≠ '>' ∧ c ≠ '=' ∧ c ≠ '"'

/-- A counterexample input for C2 and a witness input for C3: a `body`
holding a `div` that declares `display:flex` with a 12px gap, whose second
child `p` holds two text leaves. -/
def flexGapTree : HtmlElement :=
  .mk "body" [] [
    .mk "div" [("style", "display: flex; gap: 12px;")] [
      .mk "span" [] [] none,
      .mk "p" [] [.mk "textNode" [] [] (some "x"), .mk "textNode" [] [] (some "y")] none
    ] none
  ] none

/-- A glyph-measurement oracle reporting zero extent (isolates the gap
advances from the width advances). -/
def measure0 : String → Rat × Rat := fun _ => (0, 0)

/-- A text-blob oracle that always succeeds. -/
def blobAll : String → Bool := fun _ => true

/-- The subtree root declares `display: flex` with a `gap` value: its
`style` attribute parses and some parsed record pairs `display` with `flex`
and also names a `gap` (the condition under which src/main.rs:139-163
performs its override-map insertions). -/
def styleDeclaresFlexGap (el : HtmlElement) : Bool :=
  match el.attributes.find? (fun p => p.1 = "style") with
  | some (_, sty) =>
    match parse_css sty with
    | .ok styles => styles.any (fun st =>
        (match st.rules.find? (fun p => p.1 = "display") with
         | some (_, d) => d = "flex"
         | none => false) &&
        (st.rules.find? (fun p => p.1 = "gap")).isSome)
    | _ => false
  | none => false

/-- The `div` subtree of `flexGapTree`: a root declaring `display: flex`
with `gap: 12px`. -/
def c3Div : HtmlElement :=
  .mk "div" [("style", "display: flex; gap: 12px;")] [
    .mk "span" [] [] none,
    .mk "p" [] [.mk "textNode" [] [] (some "x"), .mk "textNode" [] [] (some "y")] none
  ] none

/-- The state after walking `c3Div` from `RendererState.init` under the
trace `[("body", [])]`: the cursor moved down one line (the `div` leave
break) and the layout map is empty again. -/
def c3Final : RendererState := ⟨[], "#000000", (25, 192), []⟩

/-- A document whose outer element carries an attribute and a nested child
and is closed by a mismatched tag: `<a x="1"><b></b></c>`. -/
def c7ts : List HToken := tokenize_html "<a x=\"1\"><b></b></c>"

/-! ## Lemmas about the recorded traversal log -/

/-- The log of the children loop of `walk_trace`, from an empty log. -/
def traceLogChildren (cs : List HtmlElement) (t : NodeTrace) (j : Nat) : List TEvent :=
  walk_trace.walkChildren recordEnter recordLeave cs t j []

theorem traceWalk_acc :
    ∀ el : HtmlElement, ∀ t i (acc : List TEvent),
    walk_trace recordEnter recordLeave el t i acc = acc ++ traceLogFrom el t i := by
  refine HtmlElement.treeInd
    (fun el => ∀ t i acc, walk_trace recordEnter recordLeave el t i acc =
      acc ++ traceLogFrom el t i) ?_
  intro n a cs tx ih t i acc
  have hcs : ∀ t j acc, walk_trace.walkChildren recordEnter recordLeave cs t j acc =
      acc ++ traceLogChildren cs t j := by
    clear t i acc
    induction cs with
    | nil =>
      intro t j acc
      simp [walk_trace.walkChildren, traceLogChildren]
    | cons c rest ihr =>
      intro t j acc
      have hc := ih c (by simp)
      have ihr' := ihr (fun x hx => ih x (by simp [hx]))
      simp only [walk_trace.walkChildren, traceLogChildren]
      simp only [hc, ihr']
      simp [List.append_assoc]
  simp only [walk_trace, traceLogFrom, recordEnter, recordLeave]
  simp only [hcs]
  simp [List.append_assoc]

theorem traceWalkChildren_acc (cs : List HtmlElement) :
    ∀ t j (acc : List TEvent),
    walk_trace.walkChildren recordEnter recordLeave cs t j acc =
      acc ++ traceLogChildren cs t j := by
  induction cs with
  | nil =>
    intro t j acc
    simp [walk_trace.walkChildren, traceLogChildren]
  | cons c rest ihr =>
    intro t j acc
    simp only [walk_trace.walkChildren, traceLogChildren]
    simp only [traceWalk_acc c, ihr]
    simp [List.append_assoc]

theorem traceLogChildren_cons (c : HtmlElement) (rest : List HtmlElement)
    (t : NodeTrace) (j : Nat) :
    traceLogChildren (c :: rest) t j =
      traceLogFrom c t j ++ traceLogChildren rest t (j + 1) := by
  simp only [traceLogChildren, walk_trace.walkChildren]
  simp only [traceWalk_acc c, traceWalkChildren_acc rest]
  simp

theorem traceLogFrom_eq (n : String) (a : List (String × String))
    (cs : List HtmlElement) (tx : Option String) (t : NodeTrace) (i : Nat) :
    traceLogFrom (.mk n a cs tx) t i =
      TEvent.enter (pushTrace t n a) n i a tx ::
        (traceLogChildren cs (pushTrace t n a) 0 ++ [TEvent.leave (pushTrace t n a) n]) := by
  show walk_trace recordEnter recordLeave (.mk n a cs tx) t i [] = _
  simp only [walk_trace, recordEnter, recordLeave]
  simp only [traceWalkChildren_acc]
  simp

theorem pushTrace_eq (t : NodeTrace) (n : String) (a : List (String × String))
    (cs : List HtmlElement) (tx : Option String) :
    pushTrace t n a = t ++ visiblePair (.mk n a cs tx) := by
  simp only [pushTrace, visiblePair, HtmlElement.name, HtmlElement.attributes]
  split <;> simp

theorem enters_logFrom : ∀ el : HtmlElement, ∀ (t : NodeTrace) (i : Nat),
    (traceLogFrom el t i).filterMap TEvent.enterProj =
      (annotPre t i el).map (fun x => (x.2.2.name, x.2.1, x.2.2.attributes, x.2.2.text_node)) := by
  refine HtmlElement.treeInd (fun el => ∀ t i,
    (traceLogFrom el t i).filterMap TEvent.enterProj =
      (annotPre t i el).map
        (fun x => (x.2.2.name, x.2.1, x.2.2.attributes, x.2.2.text_node))) ?_
  intro n a cs tx ih t i
  have hcs : ∀ t' j, (traceLogChildren cs t' j).filterMap TEvent.enterProj =
      (annotPreList t' j cs).map
        (fun x => (x.2.2.name, x.2.1, x.2.2.attributes, x.2.2.text_node)) := by
    induction cs with
    | nil =>
      intro t' j
      simp [traceLogChildren, walk_trace.walkChildren, annotPreList]
    | cons c rest ihr =>
      intro t' j
      rw [traceLogChildren_cons]
      simp only [List.filterMap_append, annotPreList, List.map_append]
      rw [ih c (by simp), ihr (fun x hx => ih x (by simp [hx]))]
  rw [traceLogFrom_eq]
  simp only [annotPre, List.map_cons, List.filterMap_cons, TEvent.enterProj,
    List.filterMap_append, hcs, pushTrace_eq t n a cs tx,
    HtmlElement.name, HtmlElement.attributes, HtmlElement.text_node]
  simp [TEvent.enterProj]

theorem leaves_logFrom : ∀ el : HtmlElement, ∀ (t : NodeTrace) (i : Nat),
    (traceLogFrom el t i).filterMap TEvent.leaveProj =
      (annotPost t i el).map (fun x => x.2.2.name) := by
  refine HtmlElement.treeInd (fun el => ∀ t i,
    (traceLogFrom el t i).filterMap TEvent.leaveProj =
      (annotPost t i el).map (fun x => x.2.2.name)) ?_
  intro n a cs tx ih t i
  have hcs : ∀ t' j, (traceLogChildren cs t' j).filterMap TEvent.leaveProj =
      (annotPostList t' j cs).map (fun x => x.2.2.name) := by
    induction cs with
    | nil =>
      intro t' j
      simp [traceLogChildren, walk_trace.walkChildren, annotPostList]
    | cons c rest ihr =>
      intro t' j
      rw [traceLogChildren_cons]
      simp only [List.filterMap_append, annotPostList, List.map_append]
      rw [ih c (by simp), ihr (fun x hx => ih x (by simp [hx]))]
  rw [traceLogFrom_eq]
  simp only [annotPost, List.map_cons, List.filterMap_cons, TEvent.leaveProj,
    List.filterMap_append, hcs, pushTrace_eq t n a cs tx, HtmlElement.name]
  simp [TEvent.leaveProj, HtmlElement.name]

theorem entersTrace_logFrom : ∀ el : HtmlElement, ∀ (t : NodeTrace) (i : Nat),
    (traceLogFrom el t i).filterMap TEvent.enterTraceProj =
      (annotPre t i el).map (fun x => (x.1 ++ visiblePair x.2.2, x.2.2.name)) := by
  refine HtmlElement.treeInd (fun el => ∀ t i,
    (traceLogFrom el t i).filterMap TEvent.enterTraceProj =
      (annotPre t i el).map (fun x => (x.1 ++ visiblePair x.2.2, x.2.2.name))) ?_
  intro n a cs tx ih t i
  have hcs : ∀ t' j, (traceLogChildren cs t' j).filterMap TEvent.enterTraceProj =
      (annotPreList t' j cs).map (fun x => (x.1 ++ visiblePair x.2.2, x.2.2.name)) := by
    induction cs with
    | nil =>
      intro t' j
      simp [traceLogChildren, walk_trace.walkChildren, annotPreList]
    | cons c rest ihr =>
      intro t' j
      rw [traceLogChildren_cons]
      simp only [List.filterMap_append, annotPreList, List.map_append]
      rw [ih c (by simp), ihr (fun x hx => ih x (by simp [hx]))]
  rw [traceLogFrom_eq]
  simp only [annotPre, List.map_cons, List.filterMap_cons, TEvent.enterTraceProj,
    List.filterMap_append, hcs, pushTrace_eq t n a cs tx, HtmlElement.name]
  simp [TEvent.enterTraceProj]

/-! ## Lemmas about the layout map and the layout walk -/

theorem layoutGet_filter (q : String → Bool) (l : Layout) (k : String) :
    layoutGet (l.filter (fun p => q p.1)) k = if q k then layoutGet l k else none := by
  induction l with
  | nil => simp [layoutGet]
  | cons p rest ih =>
    by_cases hq : q p.1
    · rw [List.filter_cons_of_pos (by simpa using hq)]
      by_cases hk : p.1 = k
      · simp only [layoutGet]
        rw [List.find?_cons_of_pos _ (by simpa using hk),
          List.find?_cons_of_pos _ (by simpa using hk), if_pos (hk ▸ hq)]
      · simp only [layoutGet] at ih ⊢
        rw [List.find?_cons_of_neg _ (by simpa using hk),
          List.find?_cons_of_neg _ (by simpa using hk)]
        exact ih
    · rw [List.filter_cons_of_neg (by simpa using hq)]
      by_cases hk : p.1 = k
      · rw [ih]
        have hqk : q k = false := by rw [← hk]; simpa using hq
        rw [if_neg (by simp [hqk]), if_neg (by simp [hqk])]
      · simp only [layoutGet] at ih ⊢
        rw [List.find?_cons_of_neg _ (by simpa using hk)]
        exact ih

theorem layoutGet_removePrefix (l : Layout) (pre k : String) :
    layoutGet (layoutRemovePrefix l pre) k =
      if strStartsWith k pre then none else layoutGet l k := by
  have h := layoutGet_filter (fun s => !strStartsWith s pre) l k
  simp only [layoutRemovePrefix]
  rw [h]
  by_cases hp : strStartsWith k pre <;> simp [hp]

theorem layoutGet_insert (l : Layout) (k0 v0 : String) (k : String) :
    layoutGet (layoutInsert l k0 v0) k = if k = k0 then some v0 else layoutGet l k := by
  have h := layoutGet_filter (fun s => decide (s ≠ k0)) l k
  by_cases hk : k = k0
  · subst hk
    simp only [layoutInsert, layoutGet]
    rw [List.find?_cons_of_pos _ (by simp)]
    simp
  · simp only [layoutInsert, layoutGet]
    rw [List.find?_cons_of_neg _ (by simpa using fun hc : k0 = k => hk hc.symm),
      if_neg hk]
    rw [show (decide (k ≠ k0)) = true from by simpa using hk] at h
    simpa [layoutGet] using h

theorem strStartsWith_append (p r : String) : strStartsWith (p ++ r) p = true := by
  simp only [strStartsWith, String.data_append]
  exact List.isPrefixOf_iff_prefix.mpr (List.prefix_append _ _)

theorem strStartsWith_trans_append (k p r : String)
    (h : strStartsWith k (p ++ r) = true) : strStartsWith k p = true := by
  simp only [strStartsWith, String.data_append] at h ⊢
  have h1 := List.isPrefixOf_iff_prefix.mp h
  exact List.isPrefixOf_iff_prefix.mpr ((List.prefix_append _ _).trans h1)

theorem childGapKey_under (names : List String) (cname : String) (i : Nat) :
    strStartsWith (childGapKey names cname i) (joinNames names ++ ":") = true := by
  have : childGapKey names cname i =
      (joinNames names ++ ":") ++ (cname ++ "[" ++ toString i ++ "]" ++ "." ++ "gap-left") := by
    simp only [childGapKey]
    simp [String.ext_iff, String.data_append, List.append_assoc]
  rw [this]
  exact strStartsWith_append _ _

theorem flexFold_layout_mono (names : List String) (gapStr : String) :
    ∀ (items : List (Nat × HtmlElement)) (l : Layout) (k v : String),
    layoutGet (items.foldl
      (fun acc ic =>
        if ic.1 = 0 then acc
        else layoutInsert acc (childGapKey names ic.2.name ic.1) gapStr) l) k = some v →
    layoutGet l k = some v ∨ strStartsWith k (joinNames names ++ ":") = true := by
  intro items
  induction items with
  | nil => intro l k v h; exact Or.inl h
  | cons ic rest ih =>
    intro l k v h
    simp only [List.foldl_cons] at h
    rcases ih _ k v h with h1 | h1
    · by_cases h0 : ic.1 = 0
      · rw [if_pos h0] at h1
        exact Or.inl h1
      · rw [if_neg h0, layoutGet_insert] at h1
        split at h1
        · rename_i hk
          subst hk
          exact Or.inr (childGapKey_under _ _ _)
        · exact Or.inl h1
    · exact Or.inr h1

theorem styleFlexInserts_layout_mono (names : List String)
    (children : List HtmlElement) (st : Style) (l l' : Layout)
    (h : styleFlexInserts names children st l = some l') :
    ∀ k v, layoutGet l' k = some v →
      layoutGet l k = some v ∨ strStartsWith k (joinNames names ++ ":") = true := by
  intro k v hv
  unfold styleFlexInserts at h
  split at h
  · rename_i d hd
    split at h
    · split at h
      · rename_i gapStr hgap
        injection h with h
        subst h
        exact flexFold_layout_mono names gapStr _ _ _ _ hv
      · exact absurd h (by simp)
    · injection h with h
      subst h
      exact Or.inl hv
  · injection h with h
    subst h
    exact Or.inl hv

theorem styleInsertsFold_none (f : Option Layout → Style → Option Layout)
    (hf : ∀ st, f none st = none) :
    ∀ (sts : List Style), sts.foldl f none = none := by
  intro sts
  induction sts with
  | nil => rfl
  | cons st rest ih => simp only [List.foldl_cons, hf]; exact ih

theorem styleInserts_layout_mono (names : List String)
    (children : List HtmlElement) (attrs : List (String × String)) (l l' : Layout)
    (h : styleInserts names children attrs l = some l') :
    ∀ k v, layoutGet l' k = some v →
      layoutGet l k = some v ∨ strStartsWith k (joinNames names ++ ":") = true := by
  unfold styleInserts at h
  split at h
  · rename_i sty hsty
    split at h
    · rename_i styles hok
      clear hok hsty
      induction styles generalizing l with
      | nil =>
        injection h with h
        subst h
        exact fun k v hv => Or.inl hv
      | cons st rest ih =>
        simp only [List.foldl_cons, Option.bind] at h
        cases hst : styleFlexInserts names children st l with
        | none =>
          rw [hst] at h
          rw [styleInsertsFold_none _ (fun s => rfl)] at h
          exact absurd h (by simp)
        | some l1 =>
          rw [hst] at h
          intro k v hv
          rcases ih l1 h k v hv with h1 | h1
          · exact styleFlexInserts_layout_mono names children st l l1 hst k v h1
          · exact Or.inr h1
    · exact absurd h (by simp)
  · injection h with h
    subst h
    exact fun k v hv => Or.inl hv

theorem bodyAttrFold_layout :
    ∀ (attrs : List (String × String)) (os : Option RendererState) (s' : RendererState),
    attrs.foldl bodyAttrStep os = some s' →
    ∃ s, os = some s ∧ s'.layout = s.layout := by
  intro attrs
  induction attrs with
  | nil =>
    intro os s' h
    exact ⟨s', h, rfl⟩
  | cons kv rest ih =>
    intro os s' h
    simp only [List.foldl_cons] at h
    obtain ⟨s1, hs1, hlay⟩ := ih _ _ h
    cases os with
    | none => exact absurd hs1 (by simp [bodyAttrStep])
    | some s =>
      refine ⟨s, rfl, ?_⟩
      simp only [bodyAttrStep, Option.bind] at hs1
      by_cases hbg : kv.1 = "bgcolor"
      · rw [if_pos hbg] at hs1
        by_cases hok : set_color_hex_ok kv.2
        · rw [if_pos hok] at hs1
          injection hs1 with hs1
          subst hs1
          exact hlay
        · rw [if_neg (by simpa using hok)] at hs1
          exact absurd hs1 (by simp)
      · rw [if_neg hbg] at hs1
        by_cases htx : kv.1 = "text"
        · rw [if_pos htx] at hs1
          injection hs1 with hs1
          subst hs1
          exact hlay
        · rw [if_neg htx] at hs1
          injection hs1 with hs1
          subst hs1
          exact hlay

theorem anchorPush_spec (m : String → Rat × Rat) (txt : String)
    (t : NodeTrace) (s s' : RendererState) (h : anchorPush m txt t s = some s') :
    s'.layout = s.layout ∧ s'.cursor_position = s.cursor_position := by
  unfold anchorPush at h
  split at h
  · split at h
    · injection h with h
      subst h
      exact ⟨rfl, rfl⟩
    · exact absurd h (by simp)
  · exact absurd h (by simp)

theorem textPhase_spec (m : String → Rat × Rat) (b : String → Bool)
    (t : NodeTrace) (anc : Bool) (tx : Option String) (s s' : RendererState)
    (h : textPhase m b t anc tx s = some s') :
    s'.layout = s.layout ∧
      s'.cursor_position = (s.cursor_position.1 + textAdv m b tx, s.cursor_position.2) := by
  cases tx with
  | none =>
    injection h with h
    subst h
    simp [textAdv]
  | some txt =>
    simp only [textPhase] at h
    by_cases hb : b txt
    · rw [if_pos hb] at h
      by_cases hcol : (anc || set_color_hex_ok s.current_color) = true
      · rw [if_pos hcol] at h
        cases hanc : anc with
        | true =>
          rw [hanc] at h
          simp only [if_pos rfl] at h
          cases hap : anchorPush m txt t s with
          | none => rw [hap] at h; exact absurd h (by simp [Option.bind])
          | some s1 =>
            rw [hap] at h
            simp only [Option.bind] at h
            injection h with h
            subst h
            obtain ⟨hl, hc⟩ := anchorPush_spec m txt t s s1 hap
            simp [hl, hc, textAdv, hb]
        | false =>
          rw [hanc] at h
          simp only [Bool.false_eq_true, if_false, Option.bind] at h
          injection h with h
          subst h
          simp [textAdv, hb]
      · rw [if_neg hcol] at h
        exact absurd h (by simp)
    · rw [if_neg hb] at h
      injection h with h
      subst h
      simp [textAdv, hb]

/-! The branch analyses of the enter closure. -/

theorem renderEnterStep_layout (m : String → Rat × Rat) (b : String → Bool)
    (t : NodeTrace) (n : String) (i : Nat) (a : List (String × String))
    (cs : List HtmlElement) (tx : Option String) (s s' : RendererState)
    (h : renderEnterStep m b t n i a cs tx s = some s') :
    styleInserts (NodeTrace.names t) cs a s.layout = some s'.layout := by
  unfold renderEnterStep at h
  cases hsi : styleInserts (NodeTrace.names t) cs a s.layout with
  | none => rw [hsi] at h; exact absurd h (by simp [Option.bind])
  | some l1 =>
    rw [hsi] at h
    simp only [Option.bind] at h
    split at h
    · split at h
      · injection h with h
        subst h
        rfl
      · exact absurd h (by simp)
    · split at h
      · obtain ⟨s2, hs2, hlay⟩ := bodyAttrFold_layout a _ _ h
        injection hs2 with hs2
        rw [hlay, ← hs2]
      · split at h
        · cases htp : textPhase m b t ((NodeTrace.names t).getLast? = some "a") tx
              { s with layout := l1 } with
          | none => rw [htp] at h; exact absurd h (by simp [Option.bind])
          | some s2 =>
            rw [htp] at h
            obtain ⟨hl2, -⟩ := textPhase_spec _ _ _ _ _ _ _ htp
            simp only [Option.bind] at h
            split at h
            · injection h with h
              subst h
              simp [hl2]
            · cases hg : gapOf s2.layout (gapKey (NodeTrace.names t) i) tx.isSome with
              | none => rw [hg] at h; exact absurd h (by simp [Option.bind])
              | some g =>
                rw [hg] at h
                simp only [Option.bind] at h
                injection h with h
                subst h
                simp [hl2]
        · injection h with h
          subst h
          rfl

/-- A walk applied to an already-panicked state stays panicked. -/
theorem renderWalk_none (m : String → Rat × Rat) (b : String → Bool) :
    ∀ el : HtmlElement, ∀ t i, renderWalkNode m b el t i none = none := by
  refine HtmlElement.treeInd (fun el => ∀ t i, renderWalkNode m b el t i none = none) ?_
  intro n a cs tx ih t i
  have hcs : ∀ t j, walk_trace.walkChildren (renderEnter m b) renderLeave cs t j none = none := by
    induction cs with
    | nil => intro t j; rfl
    | cons c rest ihr =>
      intro t j
      simp only [walk_trace.walkChildren]
      rw [show walk_trace (renderEnter m b) renderLeave c t j none =
        renderWalkNode m b c t j none from rfl]
      rw [ih c (by simp)]
      exact ihr (fun x hx => ih x (by simp [hx])) t (j + 1)
  simp only [renderWalkNode, walk_trace, renderEnter, Option.bind]
  rw [hcs]
  rfl

/-- Children walks propagate panic as well. -/
theorem walkChildren_none (m : String → Rat × Rat) (b : String → Bool) :
    ∀ (cs : List HtmlElement) (t : NodeTrace) (j : Nat),
    walk_trace.walkChildren (renderEnter m b) renderLeave cs t j none = none := by
  intro cs
  induction cs with
  | nil => intro t j; rfl
  | cons c rest ihr =>
    intro t j
    simp only [walk_trace.walkChildren]
    rw [show walk_trace (renderEnter m b) renderLeave c t j none =
      renderWalkNode m b c t j none from rfl]
    rw [renderWalk_none m b c]
    exact ihr t (j + 1)

/-- Monotonicity of the layout map over a completed subtree walk: every
entry present after the subtree has been fully visited (enter, children,
leave) was already present, with the same value, before the visit — the
leave sweep removes exactly the keys under the subtree's path, and every
insertion performed inside the subtree is keyed under the path of the node
that inserted it, which the corresponding leave sweeps away again. -/
theorem renderWalk_layout_mono (m : String → Rat × Rat) (b : String → Bool) :
    ∀ el : HtmlElement, ∀ (t : NodeTrace) (i : Nat) (s0 s1 : RendererState),
    renderWalkNode m b el t i (some s0) = some s1 →
    ∀ k v, layoutGet s1.layout k = some v → layoutGet s0.layout k = some v := by
  refine HtmlElement.treeInd (fun el => ∀ t i s0 s1,
    renderWalkNode m b el t i (some s0) = some s1 →
    ∀ k v, layoutGet s1.layout k = some v → layoutGet s0.layout k = some v) ?_
  intro n a cs tx ih t i s0 s1 h k v hv
  have hcs : ∀ t j sA sB,
      walk_trace.walkChildren (renderEnter m b) renderLeave cs t j (some sA) = some sB →
      ∀ k v, layoutGet sB.layout k = some v → layoutGet sA.layout k = some v := by
    clear h hv
    induction cs with
    | nil =>
      intro t j sA sB hAB k v hvB
      injection hAB with hAB
      subst hAB
      exact hvB
    | cons c rest ihr =>
      intro t j sA sB hAB k v hvB
      simp only [walk_trace.walkChildren] at hAB
      rw [show walk_trace (renderEnter m b) renderLeave c t j (some sA) =
        renderWalkNode m b c t j (some sA) from rfl] at hAB
      cases hc : renderWalkNode m b c t j (some sA) with
      | none =>
        rw [hc] at hAB
        rw [walkChildren_none m b rest t (j + 1)] at hAB
        exact absurd hAB (by simp)
      | some sC =>
        rw [hc] at hAB
        have h1 := ihr (fun x hx => ih x (by simp [hx])) t (j + 1) sC sB hAB k v hvB
        exact ih c (by simp) t j sA sC hc k v h1
  simp only [renderWalkNode, walk_trace] at h
  cases hE : renderEnterStep m b (pushTrace t n a) n i a cs tx s0 with
  | none =>
    rw [show renderEnter m b (pushTrace t n a) n i a cs tx (some s0) = none from
      (by simp [renderEnter, Option.bind, hE])] at h
    rw [walkChildren_none m b cs (pushTrace t n a) 0] at h
    exact absurd h (by simp [renderLeave])
  | some sE =>
    rw [show renderEnter m b (pushTrace t n a) n i a cs tx (some s0) = some sE from
      (by simp [renderEnter, Option.bind, hE])] at h
    cases hC : walk_trace.walkChildren (renderEnter m b) renderLeave cs
        (pushTrace t n a) 0 (some sE) with
    | none =>
      rw [hC] at h
      exact absurd h (by simp [renderLeave])
    | some s2 =>
      rw [hC] at h
      simp only [renderLeave, Option.map] at h
      injection h with h
      subst h
      -- after the leave sweep, k is not under the node's path
      simp only [renderLeaveStep, layoutGet_removePrefix] at hv
      split at hv
      · exact absurd hv (by simp)
      · rename_i hnp
        -- walk back through the children and the enter step
        have h2 := hcs (pushTrace t n a) 0 sE _ hC k v (by
          by_cases hdiv : n = "div" <;> simpa [hdiv] using hv)
        have h3 := renderEnterStep_layout m b (pushTrace t n a) n i a cs tx s0 sE hE
        rcases styleInserts_layout_mono _ _ _ _ _ h3 k v h2 with h4 | h4
        · exact h4
        · exact absurd h4 (by simp [hnp])

/-- In the in-body branch, a successful enter step performs exactly the
width advance and the gap advance: the gap lookup `gapOf` on the layout map
left by the step (the step's insertions all precede its lookup, and nothing
after the lookup touches the map) succeeds with some `g`, and the new x is
the old x plus the measured text width plus `g`. -/
theorem renderEnterStep_gap (m : String → Rat × Rat) (b : String → Bool)
    (t : NodeTrace) (n : String) (i : Nat) (a : List (String × String))
    (cs : List HtmlElement) (tx : Option String) (s s1 : RendererState)
    (htitle : (NodeTrace.names t).getLast? ≠ some "title")
    (hbody : n ≠ "body")
    (hin : (NodeTrace.names t).contains "body" = true)
    (hbr : n ≠ "br")
    (h : renderEnterStep m b t n i a cs tx s = some s1) :
    ∃ g, gapOf s1.layout (gapKey (NodeTrace.names t) i) tx.isSome = some g ∧
      s1.cursor_position.1 = s.cursor_position.1 + textAdv m b tx + g := by
  unfold renderEnterStep at h
  cases hsi : styleInserts (NodeTrace.names t) cs a s.layout with
  | none => rw [hsi] at h; exact absurd h (by simp [Option.bind])
  | some l1 =>
    rw [hsi] at h
    simp only [Option.bind] at h
    rw [if_neg htitle, if_neg hbody, if_pos hin] at h
    cases htp : textPhase m b t ((NodeTrace.names t).getLast? = some "a") tx
        { s with layout := l1 } with
    | none => rw [htp] at h; exact absurd h (by simp [Option.bind])
    | some s2 =>
      rw [htp] at h
      obtain ⟨hl2, hc2⟩ := textPhase_spec _ _ _ _ _ _ _ htp
      simp only [Option.bind] at h
      rw [if_neg hbr] at h
      cases hg : gapOf s2.layout (gapKey (NodeTrace.names t) i) tx.isSome with
      | none => rw [hg] at h; exact absurd h (by simp [Option.bind])
      | some g =>
        rw [hg] at h
        simp only [Option.bind] at h
        injection h with h
        subst h
        refine ⟨g, hg, ?_⟩
        simp [hc2]

/-- Every event of the instrumented layout walk arises from one successful
invocation of the enter step, and records that invocation's trace names,
name, index, text, post-step layout map and before/after cursor x. -/
theorem renderLogWalk_mem (m : String → Rat × Rat) (b : String → Bool) :
    ∀ el : HtmlElement, ∀ (t : NodeTrace) (i : Nat)
      (d : Option RendererState × List REvent) (ev : REvent),
    ev ∈ (walk_trace (renderEnterLog m b) renderLeaveLog el t i d).2 →
    ev ∈ d.2 ∨ ∃ (tw : NodeTrace) (n : String) (j : Nat)
      (a : List (String × String)) (cs : List HtmlElement)
      (tx : Option String) (s s1 : RendererState),
      renderEnterStep m b tw n j a cs tx s = some s1 ∧
      ev = ⟨NodeTrace.names tw, n, j, tx, s1.layout,
        s.cursor_position.1, s1.cursor_position.1⟩ := by
  refine HtmlElement.treeInd (fun el => ∀ (t : NodeTrace) (i : Nat)
      (d : Option RendererState × List REvent) (ev : REvent),
    ev ∈ (walk_trace (renderEnterLog m b) renderLeaveLog el t i d).2 →
    ev ∈ d.2 ∨ ∃ (tw : NodeTrace) (n : String) (j : Nat)
      (a : List (String × String)) (cs : List HtmlElement)
      (tx : Option String) (s s1 : RendererState),
      renderEnterStep m b tw n j a cs tx s = some s1 ∧
      ev = ⟨NodeTrace.names tw, n, j, tx, s1.layout,
        s.cursor_position.1, s1.cursor_position.1⟩) ?_
  intro n a cs tx ih t i d ev
  have hcs : ∀ (t : NodeTrace) (j : Nat)
      (d : Option RendererState × List REvent) (ev : REvent),
      ev ∈ (walk_trace.walkChildren (renderEnterLog m b) renderLeaveLog cs t j d).2 →
      ev ∈ d.2 ∨ ∃ tw nw jw aw csw txw s s1,
        renderEnterStep m b tw nw jw aw csw txw s = some s1 ∧
        ev = ⟨NodeTrace.names tw, nw, jw, txw, s1.layout,
          s.cursor_position.1, s1.cursor_position.1⟩ := by
    clear t i d ev
    induction cs with
    | nil =>
      intro t j d ev h
      exact Or.inl h
    | cons c rest ihr =>
      intro t j d ev h
      simp only [walk_trace.walkChildren] at h
      rcases ihr (fun x hx => ih x (by simp [hx])) t (j + 1) _ ev h with h1 | h1
      · rcases ih c (by simp) t j d ev h1 with h2 | h2
        · exact Or.inl h2
        · exact Or.inr h2
      · exact Or.inr h1
  intro hev
  simp only [walk_trace, renderLeaveLog] at hev
  rcases hcs (pushTrace t n a) 0
      (renderEnterLog m b (pushTrace t n a) n i a cs tx d) ev hev with h1 | h1
  · obtain ⟨os, log⟩ := d
    cases os with
    | none => exact Or.inl h1
    | some s =>
      cases hstep : renderEnterStep m b (pushTrace t n a) n i a cs tx s with
      | none =>
        simp only [renderEnterLog, hstep] at h1
        exact Or.inl h1
      | some s1 =>
        simp only [renderEnterLog, hstep] at h1
        rcases List.mem_append.mp h1 with h2 | h2
        · exact Or.inl h2
        · rcases List.mem_singleton.mp h2 with h3
          subst h3
          exact Or.inr ⟨pushTrace t n a, n, i, a, cs, tx, s, s1, hstep, rfl⟩
  · exact Or.inr h1

/-! ## Claim C3 -/

/-- C3: for every subtree whose root declares `display: flex` with a `gap`
value, once the traversal has completed the subtree (enter, all children,
leave), every override key under the subtree root's path has been removed
from the layout map, and every entry still present was already present with
the same value before the subtree was entered.  All entries inserted during
the visit (the root's own `...gap-left` child entries and every insertion
by a descendant) are keyed under that path or removed by a descendant's own
leave sweep, so none of them survives — in particular none is visible at
the moment the next sibling of the subtree is entered. -/
theorem c3_flex_scope_cleanup (m : String → Rat × Rat) (b : String → Bool)
    (el : HtmlElement) (t : NodeTrace) (i : Nat) (s0 s1 : RendererState)
    (hflex : styleDeclaresFlexGap el = true)
    (hrun : renderWalkNode m b el t i (some s0) = some s1) :
    (∀ k, strStartsWith k
        (joinNames (NodeTrace.names (pushTrace t el.name el.attributes)) ++ ":") = true →
      layoutGet s1.layout k = none) ∧
    (∀ k v, layoutGet s1.layout k = some v → layoutGet s0.layout k = some v) := by
  refine ⟨?_, renderWalk_layout_mono m b el t i s0 s1 hrun⟩
  intro k hk
  obtain ⟨n, a, cs, tx⟩ := el
  simp only [renderWalkNode, walk_trace] at hrun
  cases hd2 : walk_trace.walkChildren (renderEnter m b) renderLeave cs (pushTrace t n a) 0
      (renderEnter m b (pushTrace t n a) n i a cs tx (some s0)) with
  | none =>
    rw [hd2] at hrun
    exact absurd hrun (by simp [renderLeave])
  | some s2 =>
    rw [hd2] at hrun
    simp only [renderLeave, Option.map] at hrun
    injection hrun with hrun
    subst hrun
    simp only [HtmlElement.name, HtmlElement.attributes] at hk
    by_cases hdiv : n = "div"
    · subst hdiv
      simp [renderLeaveStep, layoutGet_removePrefix, hk]
    · simp [renderLeaveStep, layoutGet_removePrefix, hdiv, hk]

theorem c3_flex_scope_cleanup_witness :
    styleDeclaresFlexGap c3Div = true ∧
    renderWalkNode measure0 blobAll c3Div [("body", [])] 0
        (some RendererState.init) = some c3Final ∧
    ((∀ k, strStartsWith k
        (joinNames (NodeTrace.names
          (pushTrace [("body", [])] c3Div.name c3Div.attributes)) ++ ":") = true →
      layoutGet c3Final.layout k = none) ∧
    (∀ k v, layoutGet c3Final.layout k = some v →
      layoutGet RendererState.init.layout k = some v)) :=
  ⟨by decide, by decide,
    c3_flex_scope_cleanup measure0 blobAll c3Div [("body", [])] 0
      RendererState.init c3Final (by decide) (by decide)⟩

/-! ## Claim C9 -/

/-- C9: parsing the style string `"color: red; display: flex;"` as a bare
declaration list yields exactly one style record with no selector and the
declarations `[("color","red"), ("display","flex")]` in that order. -/
theorem c9_bare_declaration_list :
    parse_css "color: red; display: flex;" =
      CResult.ok [⟨none, [("color", "red"), ("display", "flex")]⟩] := by
  decide

/-! ## Claim C4 -/

/-- C4: the claim says truncated input produces a structured parse error and
never an out-of-bounds access.  On the truncated input `"<"` (the token
stream `[<]` ends where `expect_text` demands the tag name)
`HtmlParser::expect_text` indexes `self.tokens[1]` out of bounds: the
parser panics instead of returning a structured error, and returns no
tree. -/
theorem c4_truncated_input_panics : parse_html "<" = PResult.panic := by
  decide

/-! ## Claim C7 -/

/-- C7 counterexample: in the document `"<a></a><b></c>"` the opening tag
`<b>` is paired with the closing tag `</c>` — a closing-tag name that does
not equal its opening tag's name — yet parsing silently succeeds, returning
the first element only (`parse_html` never looks at the tokens after the
first element; see C10). -/
theorem c7_counterexample :
    parse_html "<a></a><b></c>" = PResult.ok (.mk "a" [] [] none) := by
  decide

/-! ## Claim C5 -/

/-- C5 counterexample: a double quote that is not at the start of a run is
consumed into the bare-text token: `a"b` lexes to the single bare-text
token `a"b`, which contains `"`. -/
theorem c5_counterexample : ¬ claimC5Statement := by
  intro h
  have h1 := (h "a\"b" "a\"b" (by decide)).2 '"' (by decide)
  exact absurd rfl h1.2.2.2.2

theorem c5_text_chars_aux : ∀ (fuel : Nat) (cs : List Char) (txt : String),
    HToken.text txt ∈ tokenizeHtmlAux fuel cs →
    txt ≠ "" ∧ ∀ c ∈ txt.data,
      rustIsWhitespace c = false ∧ c ≠ '<' ∧ c ≠ '>' ∧ c ≠ '=' := by
  intro fuel
  induction fuel with
  | zero =>
    intro cs txt h
    cases cs <;> simp [tokenizeHtmlAux] at h
  | succ f ih =>
    intro cs txt h
    cases cs with
    | nil => simp [tokenizeHtmlAux] at h
    | cons c cs =>
      simp only [tokenizeHtmlAux] at h
      split_ifs at h with hw hdoc hlt hgt hsl heq hq
      · exact ih _ _ h
      · exact ih _ _ h
      · rcases List.mem_cons.mp h with h1 | h1
        · exact absurd h1 (by simp)
        · exact ih _ _ h1
      · rcases List.mem_cons.mp h with h1 | h1
        · exact absurd h1 (by simp)
        · exact ih _ _ h1
      · rcases List.mem_cons.mp h with h1 | h1
        · exact absurd h1 (by simp)
        · exact ih _ _ h1
      · rcases List.mem_cons.mp h with h1 | h1
        · exact absurd h1 (by simp)
        · exact ih _ _ h1
      · rcases List.mem_cons.mp h with h1 | h1
        · exact absurd h1 (by simp)
        · exact ih _ _ h1
      · rcases List.mem_cons.mp h with h1 | h1
        · injection h1 with h1
          subst h1
          refine ⟨by simp [String.ext_iff], ?_⟩
          intro ch hch
          simp only [String.data] at hch
          rcases List.mem_cons.mp hch with h2 | h2
          · subst h2
            exact ⟨by simpa using hw, hlt, hgt, heq⟩
          · have h3 : htmlTextChar ch = true := List.mem_takeWhile_imp h2
            simp only [htmlTextChar, Bool.and_eq_true, Bool.not_eq_true',
              decide_eq_true_eq, bne_iff_ne] at h3
            exact ⟨h3.1.1.1, h3.1.1.2, h3.1.2, h3.2⟩
        · exact ih _ _ h1

/-- C5 (amended): every bare-text token the markup lexer produces is a
non-empty run containing no whitespace character and none of `<`, `>`, `=`
— but it can contain a double quote (see the counterexample): the run
scanner only stops at whitespace, `<`, `>` and `=`. -/
theorem c5_bare_text_runs (s txt : String) (h : HToken.text txt ∈ tokenize_html s) :
    txt ≠ "" ∧ ∀ c ∈ txt.data,
      rustIsWhitespace c = false ∧ c ≠ '<' ∧ c ≠ '>' ∧ c ≠ '=' :=
  c5_text_chars_aux _ _ _ h

/-- C5 witness: the theorem applied to the input `"ab cd"` and its first
token `ab`, instantiated at the character `a`. -/
theorem c5_bare_text_runs_witness :
    ("ab" : String) ≠ "" ∧
      rustIsWhitespace 'a' = false ∧ 'a' ≠ '<' ∧ 'a' ≠ '>' ∧ 'a' ≠ '=' := by
  have h := c5_bare_text_runs "ab cd" "ab" (by decide)
  exact ⟨h.1, h.2 'a' (by decide)⟩

/-! ## Claim C8 -/

theorem tokenizeHtmlAux_len : ∀ (fuel : Nat) (cs : List Char),
    (tokenizeHtmlAux fuel cs).length ≤ cs.length := by
  intro fuel
  induction fuel with
  | zero =>
    intro cs
    cases cs <;> simp [tokenizeHtmlAux]
  | succ f ih =>
    intro cs
    cases cs with
    | nil => simp [tokenizeHtmlAux]
    | cons c cs =>
      simp only [tokenizeHtmlAux]
      have hq := length_dropWhile_le (fun x => decide (x ≠ '"')) cs
      have ht := length_dropWhile_le htmlTextChar cs
      split_ifs
      all_goals simp only [List.length_cons, List.length_drop]
      · exact le_trans (ih cs) (Nat.le_succ _)
      · exact le_trans (ih _) (by simp only [List.length_drop]; omega)
      · have := ih cs; omega
      · have := ih cs; omega
      · have := ih cs; omega
      · have := ih cs; omega
      · have h1 := ih ((cs.dropWhile (fun x => decide (x ≠ '"'))).drop 1)
        simp only [List.length_drop] at h1
        omega
      · have h1 := ih (cs.dropWhile htmlTextChar)
        omega

theorem tokenizeCssAux_len : ∀ (fuel : Nat) (cs : List Char),
    (tokenizeCssAux fuel cs).length ≤ cs.length := by
  intro fuel
  induction fuel with
  | zero =>
    intro cs
    cases cs <;> simp [tokenizeCssAux]
  | succ f ih =>
    intro cs
    cases cs with
    | nil => simp [tokenizeCssAux]
    | cons c cs =>
      simp only [tokenizeCssAux]
      have ht := length_dropWhile_le cssIdentChar cs
      split_ifs
      all_goals simp only [List.length_cons]
      · exact le_trans (ih cs) (Nat.le_succ _)
      · have := ih cs; omega
      · have := ih cs; omega
      · have := ih cs; omega
      · have := ih cs; omega
      · have h1 := ih (cs.dropWhile cssIdentChar)
        omega

/-- C8: both lexers are total functions — the definitions `tokenize_html`
and `tokenize_css` are structurally recursive Lean functions accepted as
terminating on every input string — and each step of either scan consumes
at least one character, so the token list never exceeds the input length
(no error case exists in either lexer's result type). -/
theorem c8_lexers_total (s : String) :
    (tokenize_html s).length ≤ s.data.length ∧
      (tokenize_css s).length ≤ s.data.length :=
  ⟨tokenizeHtmlAux_len _ _, tokenizeCssAux_len _ _⟩

/-! ## Claim C1 -/

/-- C1 counterexample: for the one-node tree `<html>`, the trace passed to
the root's enter callback is `[("html", [])]` — `walk_trace` pushes the
node's own (name, attributes) pair before invoking the enter callback — and
not the empty ancestor list the claim demands. -/
theorem c1_counterexample : ¬ claimC1Statement := by
  intro h
  have h1 := h (.mk "html" [] [] none)
  revert h1
  decide

/-- C1 (amended): the trace passed to a node's enter callback is the
sequence of its non-`textNode` ancestors' (name, attributes) pairs from the
root down to its parent, with the node's own (name, attributes) pair
appended when the node is not itself a `textNode` (for `textNode` leaves
the trace is exactly the ancestor sequence).  Stated as: the (trace, name)
pairs passed to the enter callbacks, in order, equal the pre-order
enumeration of the tree annotated with ancestor-plus-own-pair traces. -/
theorem c1_enter_traces (el : HtmlElement) :
    (traceLog el).filterMap TEvent.enterTraceProj =
      (annotPre [] 0 el).map (fun x => (x.1 ++ visiblePair x.2.2, x.2.2.name)) :=
  entersTrace_logFrom el [] 0

/-! ## Claim C6 -/

/-- C6: the traversal engine invokes the enter callback exactly once per
node, in pre-order (each node before its children, children in index
order), and the leave callback exactly once per node, in post-order (each
node after its children): the enter invocations, projected to (name, index,
attributes, text), equal the pre-order enumeration of the tree, and the
leave invocations equal the post-order enumeration. -/
theorem c6_document_order (el : HtmlElement) :
    (traceLog el).filterMap TEvent.enterProj =
      (annotPre [] 0 el).map
        (fun x => (x.2.2.name, x.2.1, x.2.2.attributes, x.2.2.text_node)) ∧
    (traceLog el).filterMap TEvent.leaveProj =
      (annotPost [] 0 el).map (fun x => x.2.2.name) :=
  ⟨enters_logFrom el [] 0, leaves_logFrom el [] 0⟩

/-! ## Claim C2 -/

/-- C2 counterexample: in `flexGapTree` (with zero-width glyphs), the enter
of the second text leaf `y` of `p` finds the override entry
`body:div:p[1].gap-left = "12px"` under its own synthetic key, yet the code
advances x by the text-leaf default 8, not by the parsed override 12 as the
claim states: the run advances 45 → 53 where the claim demands 45 → 57. -/
theorem c2_counterexample : ¬ claimC2Statement := by
  intro h
  have h1 := h measure0 blobAll flexGapTree RendererState.init
    ⟨["body", "div", "p"], "textNode", 1, some "y",
      [("body:div:p[1].gap-left", "12px")], 45, 53⟩
    (by decide) (by decide) (by decide)
  revert h1
  decide

/-- C2 (amended): for every enter invocation logged inside the body (the
trace names contain `body`, the node is not itself `body`, its parent chain
does not end at `title`, and its name is not `br`), the cursor's x advances
by the measured text width plus the gap `gapOf` computes on the layout map
the lookup consulted: the override entry at the node's synthetic key,
`px`-stripped and numerically parsed, when the entry is present and the
node is NOT a text leaf; 8 units for a text leaf whether or not an entry is
present (the override is ignored then — see the counterexample); 0
otherwise. -/
theorem c2_gap_advance (m : String → Rat × Rat) (b : String → Bool)
    (el : HtmlElement) (s0 : RendererState) (ev : REvent)
    (hev : ev ∈ renderLog m b el s0)
    (hbody : ev.traceNames.contains "body" = true)
    (htitle : ev.traceNames.getLast? ≠ some "title")
    (hname : ev.name ≠ "body") (hbr : ev.name ≠ "br") :
    ∃ g, gapOf ev.layoutAfter (gapKey ev.traceNames ev.index) ev.text.isSome = some g ∧
      ev.xAfter = ev.xBefore + textAdv m b ev.text + g := by
  rcases renderLogWalk_mem m b el [] 0 (some s0, []) ev hev with h | h
  · exact absurd h (by simp)
  · obtain ⟨tw, n, j, a, cs, tx, s, s1, hstep, hev2⟩ := h
    subst hev2
    exact renderEnterStep_gap m b tw n j a cs tx s s1 htitle hname hbody hbr hstep

/-- C2 witness: the amended theorem applied to the logged enter of the
second text leaf `y` of `p` in `flexGapTree` — the override entry is
present but the node is a text leaf, so the gap is 8 and x advances
45 → 53 (zero-width glyphs). -/
theorem c2_gap_advance_witness :
    ((⟨["body", "div", "p"], "textNode", 1, some "y",
        [("body:div:p[1].gap-left", "12px")], 45, 53⟩ : REvent) ∈
      renderLog measure0 blobAll flexGapTree RendererState.init ∧
     (["body", "div", "p"].contains "body" = true ∧
      ["body", "div", "p"].getLast? ≠ some "title" ∧
      ("textNode" : String) ≠ "body" ∧ ("textNode" : String) ≠ "br")) ∧
    ∃ g, gapOf [("body:div:p[1].gap-left", "12px")]
        (gapKey ["body", "div", "p"] 1) (some "y" : Option String).isSome = some g ∧
      (53 : Rat) = 45 + textAdv measure0 blobAll (some "y") + g :=
  ⟨⟨by decide, by decide, by decide, by decide, by decide⟩,
   c2_gap_advance measure0 blobAll flexGapTree RendererState.init
     ⟨["body", "div", "p"], "textNode", 1, some "y",
       [("body:div:p[1].gap-left", "12px")], 45, 53⟩
     (by decide) (by decide) (by decide) (by decide) (by decide)⟩

/-! ## Claim C10

The parser examines only the tokens of the first top-level element: a
successful `element` parse is stable under appending arbitrary tokens to
the stream (and under any increase of the structural fuel), because every
token inspected during a successful run lies strictly inside the consumed
region.  The lemmas below establish that stability bottom-up through the
parser's call graph. -/

theorem isPrefixOf_append_true {α : Type _} [BEq α] (pre l ex : List α)
    (h : pre.isPrefixOf l = true) : pre.isPrefixOf (l ++ ex) = true := by
  induction pre generalizing l with
  | nil => simp [List.isPrefixOf]
  | cons a pre ih =>
    cases l with
    | nil => simp [List.isPrefixOf] at h
    | cons b l =>
      simp only [List.cons_append, List.isPrefixOf, Bool.and_eq_true] at h ⊢
      exact ⟨h.1, ih l h.2⟩

theorem isPrefixOf_append_of_length {α : Type _} [BEq α] (pre l ex : List α)
    (h : pre.length ≤ l.length) : pre.isPrefixOf (l ++ ex) = pre.isPrefixOf l := by
  induction pre generalizing l with
  | nil => simp [List.isPrefixOf]
  | cons a pre ih =>
    cases l with
    | nil => simp at h
    | cons b l =>
      simp only [List.cons_append, List.isPrefixOf, List.append_eq]
      rw [ih l (by simpa using h)]

theorem closeLookahead_of_get (ts : List HToken) (p : Nat)
    (h1 : ts.get? p = some .lAngle) (h2 : ts.get? (p + 1) = some .slash) :
    closeLookahead.isPrefixOf (ts.drop p) = true := by
  obtain ⟨hl1, hg1⟩ := List.get?_eq_some.mp h1
  obtain ⟨hl2, hg2⟩ := List.get?_eq_some.mp h2
  rw [List.drop_eq_get_cons hl1, List.drop_eq_get_cons hl2]
  simp only [List.get_eq_getElem] at hg1 hg2
  simp [closeLookahead, List.isPrefixOf, List.get_eq_getElem, hg1, hg2]

theorem expectTok_ext (ts ex : List HToken) (pos : Nat) (t : HToken) (p' : Nat)
    (h : expectTok ts pos t = .ok p') : expectTok (ts ++ ex) pos t = .ok p' := by
  obtain ⟨hp, hlt, hget⟩ := expectTok_ok h
  subst hp
  unfold expectTok
  have hlt' : pos < (ts ++ ex).length := by simp only [List.length_append]; omega
  rw [dif_pos hlt']
  have h1 : (ts ++ ex).get? pos = some t := by
    rw [List.get?_append hlt]; exact hget
  rw [List.get?_eq_get hlt'] at h1
  injection h1 with h1
  rw [if_pos h1]

theorem expectText_ext (ts ex : List HToken) (pos : Nat) (s : String) (p' : Nat)
    (h : expectText ts pos = .ok (s, p')) : expectText (ts ++ ex) pos = .ok (s, p') := by
  obtain ⟨hp, hlt, hget⟩ := expectText_ok h
  subst hp
  unfold expectText
  have hlt' : pos < (ts ++ ex).length := by simp only [List.length_append]; omega
  rw [dif_pos hlt']
  have h1 : (ts ++ ex).get? pos = some (.text s) := by
    rw [List.get?_append hlt]; exact hget
  rw [List.get?_eq_get hlt'] at h1
  injection h1 with h1
  rw [h1]

theorem expectQuoted_ext (ts ex : List HToken) (pos : Nat) (s : String) (p' : Nat)
    (h : expectQuoted ts pos = .ok (s, p')) : expectQuoted (ts ++ ex) pos = .ok (s, p') := by
  obtain ⟨hp, hlt, hget⟩ := expectQuoted_ok h
  subst hp
  unfold expectQuoted
  have hlt' : pos < (ts ++ ex).length := by simp only [List.length_append]; omega
  rw [dif_pos hlt']
  have h1 : (ts ++ ex).get? pos = some (.quotedText s) := by
    rw [List.get?_append hlt]; exact hget
  rw [List.get?_eq_get hlt'] at h1
  injection h1 with h1
  rw [h1]

theorem attributeP_ext (ts ex : List HToken) (pos : Nat) (kv : String × String) (p' : Nat)
    (h : attributeP ts pos = .ok (kv, p')) : attributeP (ts ++ ex) pos = .ok (kv, p') := by
  unfold attributeP at h ⊢
  cases h1 : expectText ts pos with
  | ok a =>
    obtain ⟨key, p1⟩ := a
    rw [h1] at h
    simp only [PResult.bind] at h
    cases h2 : expectTok ts p1 .equal with
    | ok p2 =>
      rw [h2] at h
      simp only [PResult.bind] at h
      cases h3 : expectQuoted ts p2 with
      | ok b =>
        obtain ⟨value, p3⟩ := b
        rw [h3] at h
        simp only [PResult.bind] at h
        rw [expectText_ext ts ex pos key p1 h1]
        simp only [PResult.bind]
        rw [expectTok_ext ts ex p1 .equal p2 h2]
        simp only [PResult.bind]
        rw [expectQuoted_ext ts ex p2 value p3 h3]
        simp only [PResult.bind]
        exact h
      | err e => rw [h3] at h; exact absurd h (by simp [PResult.bind])
      | panic => rw [h3] at h; exact absurd h (by simp [PResult.bind])
    | err e => rw [h2] at h; exact absurd h (by simp [PResult.bind])
    | panic => rw [h2] at h; exact absurd h (by simp [PResult.bind])
  | err e => rw [h1] at h; exact absurd h (by simp [PResult.bind])
  | panic => rw [h1] at h; exact absurd h (by simp [PResult.bind])

theorem attributeP_text (ts : List HToken) (pos : Nat) (kv : String × String) (p' : Nat)
    (h : attributeP ts pos = .ok (kv, p')) : ∃ s, ts.get? pos = some (.text s) := by
  unfold attributeP at h
  cases h1 : expectText ts pos with
  | ok a =>
    obtain ⟨key, p1⟩ := a
    obtain ⟨-, -, hget⟩ := expectText_ok h1
    exact ⟨key, hget⟩
  | err e => rw [h1] at h; exact absurd h (by simp [PResult.bind])
  | panic => rw [h1] at h; exact absurd h (by simp [PResult.bind])

/-- A successful attribute loop exits on `>` or `/` and its run is stable
under any larger fuel and any extension of the token stream. -/
theorem attributesPF_ext : ∀ (f : Nat) (ts : List HToken) (pos : Nat)
    (attrs : List (String × String)) (p' : Nat),
    attributesPF f ts pos = .ok (attrs, p') →
    (ts.get? p' = some .rAngle ∨ ts.get? p' = some .slash) ∧
    ∀ (f' : Nat) (ex : List HToken), f ≤ f' →
      attributesPF f' (ts ++ ex) pos = .ok (attrs, p') := by
  intro f
  induction f with
  | zero => intro ts pos attrs p' h; exact absurd h (by simp [attributesPF])
  | succ f ih =>
    intro ts pos attrs p' h
    simp only [attributesPF] at h
    by_cases hc : ts.get? pos ≠ some HToken.rAngle ∧ ts.get? pos ≠ some HToken.slash
    · rw [if_pos hc] at h
      cases h1 : attributeP ts pos with
      | ok a =>
        obtain ⟨kv, p1⟩ := a
        rw [h1] at h
        simp only [PResult.bind] at h
        cases h2 : attributesPF f ts p1 with
        | ok b =>
          obtain ⟨rest, p2⟩ := b
          rw [h2] at h
          simp only [PResult.bind] at h
          injection h with h
          injection h with ha hp
          subst ha
          subst hp
          obtain ⟨hexit, hext⟩ := ih ts p1 rest p2 h2
          refine ⟨hexit, ?_⟩
          intro f' ex hf'
          cases f' with
          | zero => omega
          | succ f'' =>
            simp only [attributesPF]
            obtain ⟨s, hs⟩ := attributeP_text ts pos kv p1 h1
            obtain ⟨hpos, -⟩ := List.get?_eq_some.mp hs
            have hgext : (ts ++ ex).get? pos = some (.text s) := by
              rw [List.get?_append hpos]; exact hs
            rw [if_pos ⟨by rw [hgext]; simp, by rw [hgext]; simp⟩]
            rw [attributeP_ext ts ex pos kv p1 h1]
            simp only [PResult.bind]
            rw [hext f'' ex (by omega)]
        | err e => rw [h2] at h; exact absurd h (by simp [PResult.bind])
        | panic => rw [h2] at h; exact absurd h (by simp [PResult.bind])
      | err e => rw [h1] at h; exact absurd h (by simp [PResult.bind])
      | panic => rw [h1] at h; exact absurd h (by simp [PResult.bind])
    · rw [if_neg hc] at h
      injection h with h
      injection h with ha hp
      subst ha
      subst hp
      have hexit : ts.get? pos = some HToken.rAngle ∨ ts.get? pos = some HToken.slash := by
        rcases not_and_or.mp hc with h1 | h1
        · exact Or.inl (not_not.mp h1)
        · exact Or.inr (not_not.mp h1)
      refine ⟨hexit, ?_⟩
      intro f' ex hf'
      cases f' with
      | zero => omega
      | succ f'' =>
        simp only [attributesPF]
        rcases hexit with h1 | h1
        · obtain ⟨hpos, -⟩ := List.get?_eq_some.mp h1
          have hgext : (ts ++ ex).get? pos = some HToken.rAngle := by
            rw [List.get?_append hpos]; exact h1
          rw [if_neg (by rw [hgext]; simp)]
        · obtain ⟨hpos, -⟩ := List.get?_eq_some.mp h1
          have hgext : (ts ++ ex).get? pos = some HToken.slash := by
            rw [List.get?_append hpos]; exact h1
          rw [if_neg (by rw [hgext]; simp)]

/-- A successful `script` scan finds the closing sequence inside the
stream and its run is stable under larger fuel and stream extension. -/
theorem scriptScanF_ext : ∀ (f : Nat) (ts : List HToken) (pos p' : Nat),
    scriptScanF f ts pos = .ok p' →
    pos ≤ p' ∧ p' + 4 ≤ ts.length ∧
    ∀ (f' : Nat) (ex : List HToken), f ≤ f' →
      scriptScanF f' (ts ++ ex) pos = .ok p' := by
  intro f
  induction f with
  | zero => intro ts pos p' h; exact absurd h (by simp [scriptScanF])
  | succ f ih =>
    intro ts pos p' h
    simp only [scriptScanF] at h
    by_cases hle : pos ≤ ts.length
    · rw [if_pos hle] at h
      by_cases hpre : scriptClose.isPrefixOf (ts.drop pos) = true
      · rw [if_pos hpre] at h
        injection h with h
        subst h
        have hlen4 : 4 ≤ ts.length - pos := by
          have := (List.isPrefixOf_iff_prefix.mp hpre).length_le
          simpa [scriptClose] using this
        refine ⟨le_refl _, by omega, ?_⟩
        intro f' ex hf'
        cases f' with
        | zero => omega
        | succ f'' =>
          simp only [scriptScanF]
          rw [if_pos (by simp only [List.length_append]; omega)]
          rw [List.drop_append_of_le_length hle]
          rw [if_pos (isPrefixOf_append_true _ _ _ hpre)]
      · rw [if_neg hpre] at h
        obtain ⟨hp1, hlen, hext⟩ := ih ts (pos + 1) p' h
        refine ⟨by omega, hlen, ?_⟩
        intro f' ex hf'
        cases f' with
        | zero => omega
        | succ f'' =>
          simp only [scriptScanF]
          rw [if_pos (by simp only [List.length_append]; omega)]
          rw [List.drop_append_of_le_length hle]
          rw [isPrefixOf_append_of_length _ _ _
            (by simp only [List.length_drop, scriptClose, List.length_cons,
              List.length_nil]; omega)]
          rw [if_neg hpre]
          exact hext f'' ex (by omega)
    · rw [if_neg hle] at h
      exact absurd h (by simp)

/-- Unfolding of `element` at a position not holding a bare-text token. -/
theorem elementPF_notText (f : Nat) (ts : List HToken) (pos : Nat)
    (htext : ∀ s, ts.get? pos ≠ some (.text s)) :
    elementPF (f + 1) ts pos =
      ((expectTok ts pos .lAngle).bind fun p1 =>
      (expectText ts p1).bind fun (name, p2) =>
      (attributesP ts p2).bind fun (attrs, p3) =>
      if ts.get? p3 = some .slash then
        (expectTok ts p3 .slash).bind fun p4 =>
        (expectTok ts p4 .rAngle).bind fun p5 =>
        .ok (.mk name attrs [] none, p5)
      else
        (expectTok ts p3 .rAngle).bind fun p4 =>
        if name = "meta" then
          .ok (.mk name attrs [] none, p4)
        else if name = "script" then
          (scriptScan ts p4).bind fun p5 =>
          (expectTok ts p5 .lAngle).bind fun p6 =>
          (expectTok ts p6 .slash).bind fun p7 =>
          (expectTok ts p7 (.text "script")).bind fun p8 =>
          (expectTok ts p8 .rAngle).bind fun p9 =>
          .ok (.mk name attrs [] none, p9)
        else
          (elementsPF f ts p4).bind fun (children, p5) =>
          (expectTok ts p5 .lAngle).bind fun p6 =>
          (expectTok ts p6 .slash).bind fun p7 =>
          (expectTok ts p7 (.text name)).bind fun p8 =>
          (expectTok ts p8 .rAngle).bind fun p9 =>
          .ok (.mk name attrs children none, p9)) := by
  cases hget : ts.get? pos with
  | none => simp only [elementPF, hget]
  | some tk =>
    cases tk with
    | text s => exact absurd hget (htext s)
    | lAngle => simp only [elementPF, hget]
    | rAngle => simp only [elementPF, hget]
    | slash => simp only [elementPF, hget]
    | equal => simp only [elementPF, hget]
    | quotedText s => simp only [elementPF, hget]

/-- Joint stability of `element`/`elements`: a successful `element` run is
reproduced unchanged by any larger fuel on any extension of the token
stream (and starts at a bare-text token or at `<` with at least one more
token); a successful `elements` run whose exit position carries the
closing-tag lookahead `< /` is likewise reproduced. -/
theorem elementPF_ext : ∀ f : Nat,
    (∀ (ts : List HToken) (pos : Nat) (el : HtmlElement) (p' : Nat),
      elementPF f ts pos = .ok (el, p') →
      ((∃ s, ts.get? pos = some (.text s)) ∨
        (ts.get? pos = some .lAngle ∧ pos + 1 < ts.length)) ∧
      ∀ (f' : Nat) (ex : List HToken), f ≤ f' →
        elementPF f' (ts ++ ex) pos = .ok (el, p')) ∧
    (∀ (ts : List HToken) (pos : Nat) (els : List HtmlElement) (p' : Nat),
      elementsPF f ts pos = .ok (els, p') →
      closeLookahead.isPrefixOf (ts.drop p') = true →
      ∀ (f' : Nat) (ex : List HToken), f ≤ f' →
        elementsPF f' (ts ++ ex) pos = .ok (els, p')) := by
  intro f
  induction f with
  | zero =>
    constructor
    · intro ts pos el p' h; exact absurd h (by simp [elementPF])
    · intro ts pos els p' h; exact absurd h (by simp [elementsPF])
  | succ f ih =>
    obtain ⟨ihP, ihQ⟩ := ih
    constructor
    · intro ts pos el p' h
      by_cases htext : ∃ s, ts.get? pos = some (.text s)
      · obtain ⟨s, hget⟩ := htext
        simp only [elementPF, hget] at h
        injection h with h
        injection h with h1 h2
        subst h1
        subst h2
        refine ⟨Or.inl ⟨s, hget⟩, ?_⟩
        intro f' ex hf'
        cases f' with
        | zero => omega
        | succ f'' =>
          obtain ⟨hpos, -⟩ := List.get?_eq_some.mp hget
          have hgext : (ts ++ ex).get? pos = some (.text s) := by
            rw [List.get?_append hpos]; exact hget
          simp only [elementPF, hgext]
      · rw [elementPF_notText f ts pos (fun s hs => htext ⟨s, hs⟩)] at h
        cases hA : expectTok ts pos .lAngle with
        | err e => rw [hA] at h; exact absurd h (by simp [PResult.bind])
        | panic => rw [hA] at h; exact absurd h (by simp [PResult.bind])
        | ok p1 =>
          rw [hA] at h
          simp only [PResult.bind] at h
          cases hB : expectText ts p1 with
          | err e => rw [hB] at h; exact absurd h (by simp [PResult.bind])
          | panic => rw [hB] at h; exact absurd h (by simp [PResult.bind])
          | ok np =>
            obtain ⟨name, p2⟩ := np
            rw [hB] at h
            simp only [PResult.bind] at h
            cases hC : attributesP ts p2 with
            | err e => rw [hC] at h; exact absurd h (by simp [PResult.bind])
            | panic => rw [hC] at h; exact absurd h (by simp [PResult.bind])
            | ok ap =>
              obtain ⟨attrs, p3⟩ := ap
              rw [hC] at h
              simp only [PResult.bind] at h
              obtain ⟨hp1, hposlt, hgetpos⟩ := expectTok_ok hA
              obtain ⟨hp2, hp1lt, hgetp1⟩ := expectText_ok hB
              obtain ⟨hCexit, hCext⟩ := attributesPF_ext (ts.length + 1) ts p2 attrs p3 hC
              refine ⟨Or.inr ⟨hgetpos, by omega⟩, ?_⟩
              intro f' ex hf'
              cases f' with
              | zero => omega
              | succ f'' =>
                have hnotext : ∀ s, (ts ++ ex).get? pos ≠ some (.text s) := by
                  intro s hs
                  rw [List.get?_append hposlt, hgetpos] at hs
                  exact absurd hs (by simp)
                rw [elementPF_notText f'' (ts ++ ex) pos hnotext]
                rw [expectTok_ext ts ex pos .lAngle p1 hA]
                simp only [PResult.bind]
                rw [expectText_ext ts ex p1 name p2 hB]
                simp only [PResult.bind]
                have hCext2 : attributesP (ts ++ ex) p2 = .ok (attrs, p3) :=
                  hCext ((ts ++ ex).length + 1) ex
                    (by simp only [List.length_append]; omega)
                rw [hCext2]
                simp only [PResult.bind]
                rcases hCexit with hx | hx
                · obtain ⟨hp3lt, -⟩ := List.get?_eq_some.mp hx
                  have hgext3 : (ts ++ ex).get? p3 = some HToken.rAngle := by
                    rw [List.get?_append hp3lt]; exact hx
                  rw [if_neg (by rw [hx]; simp)] at h
                  rw [if_neg (by rw [hgext3]; simp)]
                  cases hD : expectTok ts p3 .rAngle with
                  | err e => rw [hD] at h; exact absurd h (by simp [PResult.bind])
                  | panic => rw [hD] at h; exact absurd h (by simp [PResult.bind])
                  | ok p4 =>
                    rw [hD] at h
                    simp only [PResult.bind] at h
                    rw [expectTok_ext ts ex p3 .rAngle p4 hD]
                    simp only [PResult.bind]
                    by_cases hmeta : name = "meta"
                    · rw [if_pos hmeta] at h
                      rw [if_pos hmeta]
                      exact h
                    · rw [if_neg hmeta] at h
                      rw [if_neg hmeta]
                      by_cases hscript : name = "script"
                      · rw [if_pos hscript] at h
                        rw [if_pos hscript]
                        cases hE : scriptScan ts p4 with
                        | err e => rw [hE] at h; exact absurd h (by simp [PResult.bind])
                        | panic => rw [hE] at h; exact absurd h (by simp [PResult.bind])
                        | ok p5 =>
                          rw [hE] at h
                          simp only [PResult.bind] at h
                          obtain ⟨hsp, hslen, hsext⟩ :=
                            scriptScanF_ext (ts.length + 2) ts p4 p5 hE
                          have hE2 : scriptScan (ts ++ ex) p4 = .ok p5 :=
                            hsext ((ts ++ ex).length + 2) ex
                              (by simp only [List.length_append]; omega)
                          rw [hE2]
                          simp only [PResult.bind]
                          cases hF : expectTok ts p5 .lAngle with
                          | err e => rw [hF] at h; exact absurd h (by simp [PResult.bind])
                          | panic => rw [hF] at h; exact absurd h (by simp [PResult.bind])
                          | ok p6 =>
                            rw [hF] at h
                            simp only [PResult.bind] at h
                            rw [expectTok_ext ts ex p5 .lAngle p6 hF]
                            simp only [PResult.bind]
                            cases hG : expectTok ts p6 .slash with
                            | err e => rw [hG] at h; exact absurd h (by simp [PResult.bind])
                            | panic => rw [hG] at h; exact absurd h (by simp [PResult.bind])
                            | ok p7 =>
                              rw [hG] at h
                              simp only [PResult.bind] at h
                              rw [expectTok_ext ts ex p6 .slash p7 hG]
                              simp only [PResult.bind]
                              cases hH : expectTok ts p7 (.text "script") with
                              | err e => rw [hH] at h; exact absurd h (by simp [PResult.bind])
                              | panic => rw [hH] at h; exact absurd h (by simp [PResult.bind])
                              | ok p8 =>
                                rw [hH] at h
                                simp only [PResult.bind] at h
                                rw [expectTok_ext ts ex p7 (.text "script") p8 hH]
                                simp only [PResult.bind]
                                cases hI : expectTok ts p8 .rAngle with
                                | err e => rw [hI] at h; exact absurd h (by simp [PResult.bind])
                                | panic => rw [hI] at h; exact absurd h (by simp [PResult.bind])
                                | ok p9 =>
                                  rw [hI] at h
                                  simp only [PResult.bind] at h
                                  rw [expectTok_ext ts ex p8 .rAngle p9 hI]
                                  simp only [PResult.bind]
                                  exact h
                      · rw [if_neg hscript] at h
                        rw [if_neg hscript]
                        cases hJ : elementsPF f ts p4 with
                        | err e => rw [hJ] at h; exact absurd h (by simp [PResult.bind])
                        | panic => rw [hJ] at h; exact absurd h (by simp [PResult.bind])
                        | ok cp =>
                          obtain ⟨children, p5⟩ := cp
                          rw [hJ] at h
                          simp only [PResult.bind] at h
                          cases hF : expectTok ts p5 .lAngle with
                          | err e => rw [hF] at h; exact absurd h (by simp [PResult.bind])
                          | panic => rw [hF] at h; exact absurd h (by simp [PResult.bind])
                          | ok p6 =>
                            rw [hF] at h
                            simp only [PResult.bind] at h
                            cases hG : expectTok ts p6 .slash with
                            | err e => rw [hG] at h; exact absurd h (by simp [PResult.bind])
                            | panic => rw [hG] at h; exact absurd h (by simp [PResult.bind])
                            | ok p7 =>
                              rw [hG] at h
                              simp only [PResult.bind] at h
                              obtain ⟨hp6, hp5lt, hgp5⟩ := expectTok_ok hF
                              obtain ⟨hp7, hp6lt, hgp6⟩ := expectTok_ok hG
                              subst hp6
                              have hla5 : closeLookahead.isPrefixOf (ts.drop p5) = true :=
                                closeLookahead_of_get ts p5 hgp5 hgp6
                              have hJ2 := ihQ ts p4 children p5 hJ hla5 f'' ex (by omega)
                              rw [hJ2]
                              simp only [PResult.bind]
                              rw [expectTok_ext ts ex p5 .lAngle (p5 + 1) hF]
                              simp only [PResult.bind]
                              rw [expectTok_ext ts ex (p5 + 1) .slash p7 hG]
                              simp only [PResult.bind]
                              cases hH : expectTok ts p7 (.text name) with
                              | err e => rw [hH] at h; exact absurd h (by simp [PResult.bind])
                              | panic => rw [hH] at h; exact absurd h (by simp [PResult.bind])
                              | ok p8 =>
                                rw [hH] at h
                                simp only [PResult.bind] at h
                                rw [expectTok_ext ts ex p7 (.text name) p8 hH]
                                simp only [PResult.bind]
                                cases hI : expectTok ts p8 .rAngle with
                                | err e => rw [hI] at h; exact absurd h (by simp [PResult.bind])
                                | panic => rw [hI] at h; exact absurd h (by simp [PResult.bind])
                                | ok p9 =>
                                  rw [hI] at h
                                  simp only [PResult.bind] at h
                                  rw [expectTok_ext ts ex p8 .rAngle p9 hI]
                                  simp only [PResult.bind]
                                  exact h
                · obtain ⟨hp3lt, -⟩ := List.get?_eq_some.mp hx
                  have hgext3 : (ts ++ ex).get? p3 = some HToken.slash := by
                    rw [List.get?_append hp3lt]; exact hx
                  rw [if_pos hx] at h
                  rw [if_pos hgext3]
                  cases hD : expectTok ts p3 .slash with
                  | err e => rw [hD] at h; exact absurd h (by simp [PResult.bind])
                  | panic => rw [hD] at h; exact absurd h (by simp [PResult.bind])
                  | ok p4 =>
                    rw [hD] at h
                    simp only [PResult.bind] at h
                    rw [expectTok_ext ts ex p3 .slash p4 hD]
                    simp only [PResult.bind]
                    cases hE : expectTok ts p4 .rAngle with
                    | err e => rw [hE] at h; exact absurd h (by simp [PResult.bind])
                    | panic => rw [hE] at h; exact absurd h (by simp [PResult.bind])
                    | ok p5 =>
                      rw [hE] at h
                      simp only [PResult.bind] at h
                      rw [expectTok_ext ts ex p4 .rAngle p5 hE]
                      simp only [PResult.bind]
                      exact h
    · intro ts pos els p' h hla f' ex hf'
      simp only [elementsPF] at h
      by_cases hc : pos < ts.length ∧ ¬ closeLookahead.isPrefixOf (ts.drop pos) = true
      · rw [if_pos hc] at h
        cases hG : elementPF f ts pos with
        | err e => rw [hG] at h; exact absurd h (by simp [PResult.bind])
        | panic => rw [hG] at h; exact absurd h (by simp [PResult.bind])
        | ok ep =>
          obtain ⟨el1, p1⟩ := ep
          rw [hG] at h
          simp only [PResult.bind] at h
          cases hH : elementsPF f ts p1 with
          | err e => rw [hH] at h; exact absurd h (by simp [PResult.bind])
          | panic => rw [hH] at h; exact absurd h (by simp [PResult.bind])
          | ok rp =>
            obtain ⟨rest, p2⟩ := rp
            rw [hH] at h
            simp only [PResult.bind] at h
            injection h with h
            injection h with h1 h2
            subst h1
            subst h2
            obtain ⟨hPos, hPext⟩ := ihP ts pos el1 p1 hG
            have hQext := ihQ ts p1 rest p2 hH hla
            cases f' with
            | zero => omega
            | succ f'' =>
              simp only [elementsPF]
              have hcond : pos < (ts ++ ex).length ∧
                  ¬ closeLookahead.isPrefixOf ((ts ++ ex).drop pos) = true := by
                refine ⟨by simp only [List.length_append]; omega, ?_⟩
                rw [List.drop_append_of_le_length (le_of_lt hc.1)]
                rcases hPos with ⟨s, hs⟩ | ⟨hs, hlt2⟩
                · obtain ⟨hlt1, hg1⟩ := List.get?_eq_some.mp hs
                  simp only [List.get_eq_getElem] at hg1
                  rw [List.drop_eq_get_cons hlt1]
                  simp [closeLookahead, List.isPrefixOf, List.get_eq_getElem, hg1]
                · rw [isPrefixOf_append_of_length _ _ _
                    (by simp only [List.length_drop, closeLookahead, List.length_cons,
                      List.length_nil]; omega)]
                  exact hc.2
              rw [if_pos hcond]
              rw [hPext f'' ex (by omega)]
              simp only [PResult.bind]
              rw [hQext f'' ex (by omega)]
      · rw [if_neg hc] at h
        injection h with h
        injection h with h1 h2
        subst h1
        subst h2
        cases f' with
        | zero => omega
        | succ f'' =>
          simp only [elementsPF]
          have hlen : pos ≤ ts.length := by
            have := (List.isPrefixOf_iff_prefix.mp hla).length_le
            simp only [List.length_drop, closeLookahead, List.length_cons,
              List.length_nil] at this
            omega
          have hpre : closeLookahead.isPrefixOf ((ts ++ ex).drop pos) = true := by
            rw [List.drop_append_of_le_length hlen]
            exact isPrefixOf_append_true _ _ _ hla
          rw [if_neg (fun hcc => hcc.2 hpre)]

/-- C10: for every input string whose token stream begins with one complete
well-formed element (the stream splits as `ts ++ ex` with a successful
`element` parse of `ts` from position 0), `parse_html` succeeds and returns
exactly that first element — the tokens after it, `ex`, are never examined
(no check that the whole input was consumed).  In particular an input with
two sibling top-level elements parses to just the first. -/
theorem c10_first_element_only (s : String) (ts ex : List HToken)
    (el : HtmlElement) (p : Nat)
    (hsplit : tokenize_html s = ts ++ ex)
    (hfirst : elementP ts 0 = .ok (el, p)) :
    parse_html s = .ok el := by
  unfold parse_html
  rw [hsplit]
  have hext := (elementPF_ext (2 * ts.length + 8)).1 ts 0 el p hfirst
  have h2 := hext.2 (2 * (ts ++ ex).length + 8) ex
    (by simp only [List.length_append]; omega)
  rw [show elementP (ts ++ ex) 0 =
    elementPF (2 * (ts ++ ex).length + 8) (ts ++ ex) 0 from rfl]
  rw [h2]
  simp [PResult.bind]

/-- C7 (amended): whenever the parser reaches the closing tag of an
element it is parsing — at any position of any token stream, with any
attributes and any successfully parsed children, so in particular nested
arbitrarily deep — where the element is not `meta`, not `script` and not
self-closing, a closing-tag name different from the opening name makes
`element` fail with the structured error "want Text(opening name)"
carrying the remaining token window and the position: no tree is
returned from that parse.  (By the counterexample and C10, a mismatched
pair lying in the tokens after the first top-level element is never
reached, so the whole document can still succeed.)  The hypotheses are
exactly the run of `element` up to the closing-tag name token. -/
theorem c7_mismatch_fails (f : Nat) (ts : List HToken) (pos : Nat)
    (name m : String) (attrs : List (String × String))
    (children : List HtmlElement) (p1 p2 p3 p4 p5 p6 p7 : Nat)
    (hA : expectTok ts pos .lAngle = .ok p1)
    (hB : expectText ts p1 = .ok (name, p2))
    (hC : attributesP ts p2 = .ok (attrs, p3))
    (hns : ts.get? p3 ≠ some .slash)
    (hD : expectTok ts p3 .rAngle = .ok p4)
    (hmeta : name ≠ "meta") (hscript : name ≠ "script")
    (hE : elementsPF f ts p4 = .ok (children, p5))
    (hF : expectTok ts p5 .lAngle = .ok p6)
    (hG : expectTok ts p6 .slash = .ok p7)
    (hm : ts.get? p7 = some (.text m)) (hne : m ≠ name) :
    elementPF (f + 1) ts pos = .err ⟨.tok (.text name), ts.drop p7, p7⟩ := by
  have hnt : ∀ s, ts.get? pos ≠ some (.text s) := by
    obtain ⟨-, -, hget⟩ := expectTok_ok hA
    intro s hs
    rw [hget] at hs
    exact absurd hs (by simp)
  rw [elementPF_notText f ts pos hnt]
  rw [hA]
  simp only [PResult.bind]
  rw [hB]
  simp only [PResult.bind]
  rw [hC]
  simp only [PResult.bind]
  rw [if_neg hns]
  rw [hD]
  simp only [PResult.bind]
  rw [if_neg hmeta, if_neg hscript]
  rw [hE]
  simp only [PResult.bind]
  rw [hF]
  simp only [PResult.bind]
  rw [hG]
  simp only [PResult.bind]
  obtain ⟨hp7lt, hgetp7⟩ := List.get?_eq_some.mp hm
  have hne2 : ts.get ⟨p7, hp7lt⟩ ≠ HToken.text name := by
    rw [hgetp7]
    simp [hne]
  have herr : expectTok ts p7 (.text name) =
      .err ⟨.tok (.text name), ts.drop p7, p7⟩ := by
    unfold expectTok
    rw [dif_pos hp7lt, if_neg hne2]
  rw [herr]

/-- C7 witness: the theorem applied to `<a x="1"><b></b></c>` — an outer
element with an attribute and a nested well-formed child, closed by the
mismatched tag `</c>`: its parse fails with the structured error at the
closing-tag name token. -/
theorem c7_mismatch_fails_witness :
    (expectTok c7ts 0 .lAngle = .ok 1 ∧
     expectText c7ts 1 = .ok ("a", 2) ∧
     attributesP c7ts 2 = .ok ([("x", "1")], 5) ∧
     c7ts.get? 5 ≠ some .slash ∧
     expectTok c7ts 5 .rAngle = .ok 6 ∧
     ("a" : String) ≠ "meta" ∧ ("a" : String) ≠ "script" ∧
     elementsPF 41 c7ts 6 = .ok ([.mk "b" [] [] none], 13) ∧
     expectTok c7ts 13 .lAngle = .ok 14 ∧
     expectTok c7ts 14 .slash = .ok 15 ∧
     c7ts.get? 15 = some (.text "c") ∧ ("c" : String) ≠ "a") ∧
    elementPF 42 c7ts 0 = .err ⟨.tok (.text "a"), c7ts.drop 15, 15⟩ :=
  ⟨⟨by decide, by decide, by decide, by decide, by decide, by decide,
    by decide, by decide, by decide, by decide, by decide, by decide⟩,
   c7_mismatch_fails 41 c7ts 0 "a" "c" [("x", "1")] [.mk "b" [] [] none]
     1 2 5 6 13 14 15 (by decide) (by decide) (by decide) (by decide)
     (by decide) (by decide) (by decide) (by decide) (by decide)
     (by decide) (by decide) (by decide)⟩

/-- C10 witness: the document `<a></a><b></b>` splits after the first
element, whose parse succeeds, and the whole input parses to just
`<a></a>`. -/
theorem c10_first_element_only_witness :
    (tokenize_html "<a></a><b></b>" =
      tokenize_html "<a></a>" ++ tokenize_html "<b></b>" ∧
     elementP (tokenize_html "<a></a>") 0 = .ok (.mk "a" [] [] none, 7)) ∧
    parse_html "<a></a><b></b>" = .ok (.mk "a" [] [] none) :=
  ⟨⟨by decide, by decide⟩,
   c10_first_element_only "<a></a><b></b>" (tokenize_html "<a></a>")
     (tokenize_html "<b></b>") (.mk "a" [] [] none) 7 (by decide) (by decide)⟩

end ByoBrowser
